import Mathlib

/-!
Verification of the constraint-to-gate lowering core of the `circle-plonk`
repository (R1CS → PLONK-shaped circuit over the Mersenne-31 field).

The Rust sources are shallowly embedded:
* `src/circuit.rs`            → the `Circuit` structure and its operations;
* `src/from_r1cs/r1cs_constraint_processor.rs`
                              → `OnDemandAllocator`, `reduce_coefs`, the three
                                constraint processors and `generate_circuit`;
* `src/from_r1cs/circom/mod.rs` → `witness_read`.

Both Rust field types (`FM31` from arkworks and `M31` from stwo) are residues
mod p = 2^31 − 1; they are embedded as the single type `F := ZMod 2147483647`
(`to_m31` is the identity under this identification).

Rust `Vec` indexing panics out of range; the embedding uses `List.getD _ _ 0`
(resp. `List.set`, a no-op out of range) and the theorems carry in-range
hypotheses wherever the distinction could matter.  Rust code that can panic on
data-dependent conditions (`.inverse().unwrap()` on a zero field element) is
embedded with `Option`, `none` marking the panic.
-/

abbrev F : Type := ZMod 2147483647

/-- p = 2^31 − 1 is prime (Lucas–Lehmer, Mersenne exponent 31), so `F` is a
field. -/
instance : Fact (Nat.Prime 2147483647) :=
  ⟨by
    have h : (mersenne 31).Prime :=
      lucas_lehmer_sufficiency _ (by norm_num) (by norm_num)
    have e : mersenne 31 = 2147483647 := by norm_num [mersenne]
    rwa [e] at h⟩

namespace CirclePlonk

/-- The circuit IR of `src/circuit.rs` (`pub struct Circuit`).  The `mode`
field of the Rust struct is omitted: it is never read by any circuit
operation (the mode only selects the assignment vector in
`generate_circuit`, which the embedding takes as an explicit argument). -/
structure Circuit where
  num_rows : Nat
  output_wires : List F
  op : List F
  idx_a : List Nat
  idx_b : List Nat
  mult : List Nat
  input_maps : List (Nat × F)
  constant_maps : List (F × Nat)
deriving DecidableEq

/-- `Circuit::new`: the default (all-empty) circuit with the single bootstrap
row pushed: `out = 0, op = 1, idx_a = 0, idx_b = 0, mult = 2`. -/
def Circuit.new : Circuit :=
  { num_rows := 1
    output_wires := [0]
    op := [1]
    idx_a := [0]
    idx_b := [0]
    mult := [2]
    input_maps := []
    constant_maps := [] }

/-- `Circuit::get_output_wire` (Rust panics out of range; embedded with
default 0). -/
def Circuit.get_output_wire (c : Circuit) (idx : Nat) : F :=
  c.output_wires.getD idx 0

/-- `Circuit::increase_output_count`: `self.mult[idx] += 1` (Rust panics out
of range; `List.set` is a no-op there). -/
def Circuit.increase_output_count (c : Circuit) (idx : Nat) : Circuit :=
  { c with mult := c.mult.set idx (c.mult.getD idx 0 + 1) }

/-- `Circuit::new_row`: append a row whose output is computed by the local
row formula, initialize its `mult` to 0, then increment the multiplicities
of both referenced rows.  Returns (circuit, index of the new row). -/
def Circuit.new_row (c : Circuit) (op : F) (idx_a idx_b : Nat) : Circuit × Nat :=
  let value := op * (c.get_output_wire idx_a + c.get_output_wire idx_b)
      + (1 - op) * c.get_output_wire idx_a * c.get_output_wire idx_b
  let idx := c.num_rows
  let c' : Circuit :=
    { c with
      num_rows := c.num_rows + 1
      output_wires := c.output_wires ++ [value]
      op := c.op ++ [op]
      idx_a := c.idx_a ++ [idx_a]
      idx_b := c.idx_b ++ [idx_b]
      mult := c.mult ++ [0] }
  let c'' := (c'.increase_output_count idx_a).increase_output_count idx_b
  (c'', idx)

/-- `Circuit::new_constant`: memoized `new_row(constant, 1, 0)` through the
`constant_maps` cache (the Rust `HashMap` is embedded as an association
list). -/
def Circuit.new_constant (c : Circuit) (constant : F) : Circuit × Nat :=
  match c.constant_maps.lookup constant with
  | some idx => (c, idx)
  | none =>
    let r := c.new_row constant 1 0
    ({ r.1 with constant_maps := (constant, r.2) :: r.1.constant_maps }, r.2)

/-- `Circuit::add` = `new_row(1, a, b)`. -/
def Circuit.add (c : Circuit) (idx_a idx_b : Nat) : Circuit × Nat :=
  c.new_row 1 idx_a idx_b

/-- `Circuit::mul` = `new_row(0, a, b)`. -/
def Circuit.mul (c : Circuit) (idx_a idx_b : Nat) : Circuit × Nat :=
  c.new_row 0 idx_a idx_b

/-- `Circuit::mul_by_constant` = `new_row(constant, idx, 0)`. -/
def Circuit.mul_by_constant (c : Circuit) (idx : Nat) (constant : F) : Circuit × Nat :=
  c.new_row constant idx 0

/-- `Circuit::neg` = `mul_by_constant(idx, −1)`. -/
def Circuit.neg (c : Circuit) (idx : Nat) : Circuit × Nat :=
  c.mul_by_constant idx (-1)

/-- `Circuit::zero_test`: append the helper row
`op = 1, idx_a = idx, idx_b = helper, out = 0, mult = 1` and increment
`mult[idx]`. -/
def Circuit.zero_test (c : Circuit) (idx : Nat) : Circuit :=
  let helper := c.num_rows
  let c' : Circuit :=
    { c with
      num_rows := c.num_rows + 1
      output_wires := c.output_wires ++ [0]
      op := c.op ++ [1]
      idx_a := c.idx_a ++ [idx]
      idx_b := c.idx_b ++ [helper]
      mult := c.mult ++ [1] }
  c'.increase_output_count idx

/-- `Circuit::new_input`: self-referential row `op = 1, idx_a = self,
idx_b = 0, out = input, mult = 0`; records `(idx, input)` in `input_maps`
and increments row 0's multiplicity. -/
def Circuit.new_input (c : Circuit) (input : F) : Circuit × Nat :=
  let idx := c.num_rows
  let c' : Circuit :=
    { c with
      num_rows := c.num_rows + 1
      output_wires := c.output_wires ++ [input]
      op := c.op ++ [1]
      idx_a := c.idx_a ++ [idx]
      idx_b := c.idx_b ++ [0]
      mult := c.mult ++ [0]
      input_maps := c.input_maps ++ [(idx, input)] }
  (c'.increase_output_count 0, idx)

/-- `Circuit::new_witness`: like `new_input` but `mult = 1` and no
`input_maps` entry. -/
def Circuit.new_witness (c : Circuit) (witness : F) : Circuit × Nat :=
  let idx := c.num_rows
  let c' : Circuit :=
    { c with
      num_rows := c.num_rows + 1
      output_wires := c.output_wires ++ [witness]
      op := c.op ++ [1]
      idx_a := c.idx_a ++ [idx]
      idx_b := c.idx_b ++ [0]
      mult := c.mult ++ [1] }
  (c'.increase_output_count 0, idx)

/-- One iteration of the check loop of `Circuit::is_constraint_satisfied`:
row `j` passes iff `op·(w_a + w_b) + (1 − op)·w_a·w_b − w_c = 0`. -/
def Circuit.row_check (c : Circuit) (j : Nat) : Bool :=
  let w_a := c.get_output_wire (c.idx_a.getD j 0)
  let w_b := c.get_output_wire (c.idx_b.getD j 0)
  let w_c := c.output_wires.getD j 0
  let opj := c.op.getD j 0
  decide (opj * (w_a + w_b) + (1 - opj) * w_a * w_b - w_c = 0)

/-- `Circuit::is_constraint_satisfied`: the five parallel arrays have length
`num_rows` (the Rust `assert_eq!`s, embedded as part of the boolean) and
every row passes `row_check`. -/
def Circuit.is_constraint_satisfied (c : Circuit) : Bool :=
  decide (c.num_rows = c.output_wires.length) &&
  decide (c.num_rows = c.op.length) &&
  decide (c.num_rows = c.idx_a.length) &&
  decide (c.num_rows = c.idx_b.length) &&
  decide (c.num_rows = c.mult.length) &&
  (List.range c.num_rows).all (fun j => c.row_check j)

/-- One iteration of the loop body of `Circuit::pad_to_next_power_of_2`:
append `op = 0, idx_a = 0, idx_b = 0, out = 0, mult = 0` and increment row
0's multiplicity twice. -/
def Circuit.padRow (c : Circuit) : Circuit :=
  let c' : Circuit :=
    { c with
      num_rows := c.num_rows + 1
      output_wires := c.output_wires ++ [0]
      op := c.op ++ [0]
      idx_a := c.idx_a ++ [0]
      idx_b := c.idx_b ++ [0]
      mult := c.mult ++ [0] }
  (c'.increase_output_count 0).increase_output_count 0

/-- Doubling loop of `usize::next_power_of_two` with explicit fuel (the fuel
`n` always suffices since `n ≤ 2 ^ n`). -/
def next_power_of_two_go : Nat → Nat → Nat → Nat
  | 0, power, _ => power
  | fuel + 1, power, n => if power < n then next_power_of_two_go fuel (power * 2) n else power

/-- `usize::next_power_of_two`: the least power of two ≥ `n` (1 for `n = 0`). -/
def next_power_of_two (n : Nat) : Nat :=
  next_power_of_two_go n 1 n

/-- `Circuit::pad_to_next_power_of_2`: the Rust loop runs
`for _ in 0..num_rows.next_power_of_two()`, i.e. it appends
`next_power_of_two(num_rows)` pad rows. -/
def Circuit.pad_to_next_power_of_2 (c : Circuit) : Circuit :=
  Circuit.padRow^[next_power_of_two c.num_rows] c

/-! ## The on-demand allocator and the R1CS constraint processor
(`src/from_r1cs/r1cs_constraint_processor.rs`). -/

/-- `pub struct OnDemandAllocator` (its `HashMap` embedded as an association
list, most recent binding first). -/
structure OnDemandAllocator where
  assignments : List F
  mapping : List (Nat × Nat)
  num_input : Nat
deriving DecidableEq

/-- `OnDemandAllocator::new`. -/
def OnDemandAllocator.new (assignments : List F) (num_input : Nat) : OnDemandAllocator :=
  { assignments := assignments, mapping := [], num_input := num_input }

/-- `OnDemandAllocator::is_allocated`. -/
def OnDemandAllocator.is_allocated (al : OnDemandAllocator) (idx : Nat) : Bool :=
  (al.mapping.lookup idx).isSome

/-- `OnDemandAllocator::set_allocated` (the Rust `assert!(!is_allocated)` is
met at every call site; insertion shadows any older binding). -/
def OnDemandAllocator.set_allocated (al : OnDemandAllocator) (idx allocated : Nat) :
    OnDemandAllocator :=
  { al with mapping := (idx, allocated) :: al.mapping }

/-- The joint mutable state of the processor: the circuit under construction
together with the allocator. -/
abbrev PState : Type := Circuit × OnDemandAllocator

/-- `OnDemandAllocator::get`: return the row already bound to variable `idx`,
or materialize it as a `new_input` row (instance variables,
`idx < num_input`) or a `new_witness` row (witness variables), binding it.
(`self.assignments[idx]` is embedded as `getD _ _ 0`.) -/
def allocator_get (s : PState) (idx : Nat) : PState × Nat :=
  match s.2.mapping.lookup idx with
  | some v => (s, v)
  | none =>
    let r :=
      if idx < s.2.num_input then s.1.new_input (s.2.assignments.getD idx 0)
      else s.1.new_witness (s.2.assignments.getD idx 0)
    ((r.1, { s.2 with mapping := (idx, r.2) :: s.2.mapping }), r.2)

/-- A sparse linear combination: a list of `(coefficient, variable_index)`
pairs, as in the arkworks matrices (`Vec<(FM31, usize)>`). -/
abbrev LinComb : Type := List (F × Nat)

/-- The scalar `k` accumulated by the loops of
`get_linear_combination_type` and `reduce_coefs`: the sum of the
coefficients carried by variable index 0 (the constant part). -/
def ksum : LinComb → F
  | [] => 0
  | t :: r => (if t.2 = 0 then t.1 else 0) + ksum r

/-- The list `cs` built by `reduce_coefs`: the `(variable_index, coefficient)`
pairs with non-zero index and non-zero coefficient, in order. -/
def csOf (c : LinComb) : List (Nat × F) :=
  (c.filter (fun t => t.2 ≠ 0 ∧ t.1 ≠ 0)).map (fun t => (t.2, t.1))

/-- The number `n` counted by `get_linear_combination_type`: terms with
non-zero variable index (their coefficients may be zero). -/
def nonconstCount (c : LinComb) : Nat :=
  (c.filter (fun t => t.2 ≠ 0)).length

/-- `pub enum LinearCombinationType`. -/
inductive LinearCombinationType where
  | VARIABLE : LinearCombinationType
  | CONSTANT : F → LinearCombinationType
  | NULLABLE : LinearCombinationType
deriving DecidableEq

/-- `get_linear_combination_type`: VARIABLE if some term has non-zero
variable index (`n > 0`), else CONSTANT(k) if the constant part `k` is
non-zero, else NULLABLE. -/
def get_linear_combination_type (row : LinComb) : LinearCombinationType :=
  if 0 < nonconstCount row then .VARIABLE
  else if ksum row ≠ 0 then .CONSTANT (ksum row)
  else .NULLABLE

/-- `sort_linear_combinations`: sort by ascending variable index (Rust uses
`sort_unstable_by` comparing only the index; embedded as a stable insertion
sort keyed on the index). -/
def sort_linear_combinations (lin_com : LinComb) : LinComb :=
  lin_com.insertionSort (fun x y => x.2 ≤ y.2)

/-- The body of the `for entry in cs.iter().skip(1)` loop of `reduce_coefs`:
`v = get(entry.0); if entry.1 ≠ 1 { v = mul_by_constant(v, entry.1) };
sum = add(sum, v)`. -/
def reduce_step (acc : PState × Nat) (e : Nat × F) : PState × Nat :=
  let sv := allocator_get acc.1 e.1
  let cv := if e.2 = 1 then (sv.1.1, sv.2) else sv.1.1.mul_by_constant sv.2 e.2
  let av := cv.1.add acc.2 cv.2
  ((av.1, sv.1.2), av.2)

/-- `reduce_coefs`: fold the constant part into `k`, collect non-zero
non-constant terms into `cs`; if `cs` is empty return row 0, else combine
the terms left to right and finally add the constant row when `k ≠ 0`. -/
def reduce_coefs (s : PState) (c : LinComb) : PState × Nat :=
  let k := ksum c
  match csOf c with
  | [] => (s, 0)
  | c0 :: rest =>
    let sv := allocator_get s c0.1
    let cv := if c0.2 = 1 then (sv.1.1, sv.2) else sv.1.1.mul_by_constant sv.2 c0.2
    let sr := rest.foldl reduce_step ((cv.1, sv.1.2), cv.2)
    if k ≠ 0 then
      let kc := sr.1.1.new_constant k
      let av := kc.1.add sr.2 kc.2
      ((av.1, sr.1.2), av.2)
    else sr

/-- Lines 156–171 of `process_r1cs_equal_constraint` (after the swap has
rebound `(a_or_b, constant, c)`): reduce the left side, scale by the
constant, then either inline-bind a single unallocated `c` variable or emit
a generic difference plus zero test.  `none` embeds the Rust panic
`c[0].0.inverse().unwrap()` on a zero coefficient. -/
def process_r1cs_equal_after_swap (s : PState) (a_or_b : LinComb) (constant : F)
    (c : LinComb) : Option PState :=
  let rv := reduce_coefs s a_or_b
  let mv := if constant = 1 then (rv.1.1, rv.2) else rv.1.1.mul_by_constant rv.2 constant
  let s1 : PState := (mv.1, rv.1.2)
  if c.length = 1 ∧ ¬ s1.2.is_allocated (c.headD (0, 0)).2 then
    if (c.headD (0, 0)).1 = 1 then
      some (s1.1, s1.2.set_allocated (c.headD (0, 0)).2 mv.2)
    else if (c.headD (0, 0)).1 = 0 then none
    else
      let iv := s1.1.mul_by_constant mv.2 ((c.headD (0, 0)).1)⁻¹
      some (iv.1, s1.2.set_allocated (c.headD (0, 0)).2 iv.2)
  else
    let rc := reduce_coefs s1 c
    let nv := rc.1.1.neg rc.2
    let av := nv.1.add mv.2 nv.2
    some (av.1.zero_test av.2, rc.1.2)

/-- `process_r1cs_equal_constraint` (encodes `constant · a_or_b = c`): the
inlining swap of lines 148–154 followed by the common tail.  `none` embeds
the Rust panic `constant.inverse().unwrap()` on a zero constant. -/
def process_r1cs_equal_constraint (s : PState) (a_or_b : LinComb) (constant : F)
    (c : LinComb) : Option PState :=
  if c.length = 1 ∧ ¬ s.2.is_allocated (c.headD (0, 0)).2 then
    process_r1cs_equal_after_swap s a_or_b constant c
  else if a_or_b.length = 1 ∧ ¬ s.2.is_allocated (a_or_b.headD (0, 0)).2 then
    if constant = 0 then none
    else process_r1cs_equal_after_swap s c constant⁻¹ a_or_b
  else process_r1cs_equal_after_swap s a_or_b constant c

/-- `process_r1cs_addition_constraint`: reduce `c` and zero-test it. -/
def process_r1cs_addition_constraint (s : PState) (c : LinComb) : PState :=
  let rc := reduce_coefs s c
  (rc.1.1.zero_test rc.2, rc.1.2)

/-- `process_r1cs_multiplication_constraint` (encodes `a · b = c`); `none`
embeds the Rust panic `c[0].0.inverse().unwrap()` on zero. -/
def process_r1cs_multiplication_constraint (s : PState) (a b c : LinComb) :
    Option PState :=
  let ra := reduce_coefs s a
  let rb := reduce_coefs ra.1 b
  let s1 : PState := rb.1
  if c.length = 1 ∧ ¬ s1.2.is_allocated (c.headD (0, 0)).2 then
    let mv := s1.1.mul ra.2 rb.2
    if (c.headD (0, 0)).1 = 1 then
      some (mv.1, s1.2.set_allocated (c.headD (0, 0)).2 mv.2)
    else if (c.headD (0, 0)).1 = 0 then none
    else
      let iv := mv.1.mul_by_constant mv.2 ((c.headD (0, 0)).1)⁻¹
      some (iv.1, s1.2.set_allocated (c.headD (0, 0)).2 iv.2)
  else
    let rc := reduce_coefs s1 c
    let mv := rc.1.1.mul ra.2 rb.2
    let nv := mv.1.neg rc.2
    let av := nv.1.add mv.2 nv.2
    some (av.1.zero_test av.2, rc.1.2)

/-- The per-constraint dispatch in the main loop of `generate_circuit`
(lines 114–136): classify `a` and `b`, sort the linear combinations handed
to the addition and multiplication processors, and route. -/
def process_constraint (s : PState) (t : LinComb × LinComb × LinComb) : Option PState :=
  let lct_a := get_linear_combination_type t.1
  let lct_b := get_linear_combination_type t.2.1
  if lct_a = .NULLABLE ∨ lct_b = .NULLABLE then
    some (process_r1cs_addition_constraint s (sort_linear_combinations t.2.2))
  else
    match lct_a, lct_b with
    | .CONSTANT a_constant, _ =>
      process_r1cs_equal_constraint s t.2.1 a_constant t.2.2
    | _, .CONSTANT b_constant =>
      process_r1cs_equal_constraint s t.1 b_constant t.2.2
    | _, _ =>
      process_r1cs_multiplication_constraint s
        (sort_linear_combinations t.1) (sort_linear_combinations t.2.1)
        (sort_linear_combinations t.2.2)

/-- The R1CS matrices consumed by the processor: parallel lists of sparse
rows for A, B, C. -/
structure R1CSMatrices where
  a : List LinComb
  b : List LinComb
  c : List LinComb
deriving DecidableEq

/-- The zipped constraint triples, as produced by
`matrices.a.iter().zip(matrices.b.iter()).zip(matrices.c.iter())`. -/
def R1CSMatrices.triples (m : R1CSMatrices) : List (LinComb × LinComb × LinComb) :=
  m.a.zip (m.b.zip m.c)

/-- The instance-variable pre-allocation loop of `generate_circuit`
(`for i in 0..cs.num_instance_variables() { allocator.get(&mut output, i); }`)
starting from `Circuit::new` and a fresh allocator. -/
def initial_state (num_input : Nat) (assignments : List F) : PState :=
  (List.range num_input).foldl (fun s i => (allocator_get s i).1)
    (Circuit.new, OnDemandAllocator.new assignments num_input)

/-- The core of `generate_circuit` (everything after the arkworks
synthesis): allocate the instance variables, then process the constraint
triples in order.  `none` embeds a panic inside a processor. -/
def generate_circuit_core (num_input : Nat) (assignments : List F)
    (m : R1CSMatrices) : Option Circuit :=
  (m.triples.foldlM process_constraint (initial_state num_input assignments)).map
    Prod.fst

/-- `pub enum Mode`. -/
inductive Mode where
  | INDEX : Mode
  | PROVE : Mode
deriving DecidableEq

/-- `generate_circuit` with its mode switch (lines 86–96): in `INDEX` mode
the assignment vector is all zeros (`assignments.resize(num_variables, 0)`),
in `PROVE` mode it is the instance-then-witness assignment. -/
def generate_circuit (mode : Mode) (num_variables num_input : Nat)
    (prove_assignments : List F) (m : R1CSMatrices) : Option Circuit :=
  let assignments :=
    match mode with
    | .INDEX => List.replicate num_variables (0 : F)
    | .PROVE => prove_assignments
  generate_circuit_core num_input assignments m

/-! ## The witness binary reader (`src/from_r1cs/circom/mod.rs`). -/

/-- Little-endian read of `k` bytes of `bs` starting at `off` (the
`read_u32::<LittleEndian>` / `read_u64::<LittleEndian>` primitives). -/
def readLE (bs : List Nat) (off : Nat) : Nat → Nat
  | 0 => 0
  | k + 1 => bs.getD off 0 + 256 * readLE bs (off + 1) k

/-- `witness_read`: parse a `.wtns` byte stream.  All header checks of the
Rust reader are embedded in the success condition (any failure, including a
short read, collapses to `none`).  Each witness value is read as a
little-endian `u64`, truncated by the Rust cast `as u32`, and converted to
the field (`FM31::from(u32)` reduces mod p). -/
def witness_read (bs : List Nat) : Option (List F) :=
  if 52 + 8 * readLE bs 36 4 ≤ bs.length
      ∧ readLE bs 0 1 = 0x77 ∧ readLE bs 1 1 = 0x74
      ∧ readLE bs 2 1 = 0x6e ∧ readLE bs 3 1 = 0x73
      ∧ readLE bs 4 4 = 2 ∧ readLE bs 8 4 = 2
      ∧ readLE bs 12 4 = 1 ∧ readLE bs 16 8 = 16
      ∧ readLE bs 24 4 = 8 ∧ readLE bs 28 8 = 2147483647
      ∧ readLE bs 40 4 = 2 ∧ readLE bs 44 8 = 8 * readLE bs 36 4 then
    some ((List.range (readLE bs 36 4)).map
      (fun i => ((readLE bs (52 + 8 * i) 8 % 4294967296 : Nat) : F)))
  else none

/-! ## Basic well-formedness -/

/-- The five parallel arrays all have length `num_rows` (the `assert_eq!`s at
the top of `is_constraint_satisfied`). -/
def Circuit.well_formed (c : Circuit) : Prop :=
  c.output_wires.length = c.num_rows ∧ c.op.length = c.num_rows ∧
  c.idx_a.length = c.num_rows ∧ c.idx_b.length = c.num_rows ∧
  c.mult.length = c.num_rows

instance (c : Circuit) : Decidable c.well_formed := by
  unfold Circuit.well_formed; infer_instance

/-! ## Derived definitions used by the claim analyses -/

/-- A concrete 3-row circuit (bootstrap plus two witness rows). -/
def three_row_circuit : Circuit :=
  ((Circuit.new.new_witness 0).1.new_witness 0).1

/-- A well-formed `.wtns` byte stream declaring one witness whose u64 value
is 2^32. -/
def wtns_ex : List Nat :=
  [0x77, 0x74, 0x6e, 0x73, 2, 0, 0, 0, 2, 0, 0, 0, 1, 0, 0, 0,
   16, 0, 0, 0, 0, 0, 0, 0, 8, 0, 0, 0, 0xFF, 0xFF, 0xFF, 0x7F,
   0, 0, 0, 0, 1, 0, 0, 0, 2, 0, 0, 0, 8, 0, 0, 0, 0, 0, 0, 0,
   0, 0, 0, 0, 1, 0, 0, 0]

/-- The public circuit-building operations of `src/circuit.rs`, reified so
that the multiplicity contract can be stated over every circuit built
through them. -/
inductive COp where
  | newRow : F → Nat → Nat → COp
  | newConstant : F → COp
  | addRows : Nat → Nat → COp
  | mulRows : Nat → Nat → COp
  | mulByConstant : Nat → F → COp
  | negRow : Nat → COp
  | zeroTest : Nat → COp
  | newInput : F → COp
  | newWitness : F → COp
  | pad : COp
deriving DecidableEq

/-- Apply one public operation (discarding the returned row index). -/
def applyCOp (c : Circuit) : COp → Circuit
  | .newRow opv a b => (c.new_row opv a b).1
  | .newConstant k => (c.new_constant k).1
  | .addRows a b => (c.add a b).1
  | .mulRows a b => (c.mul a b).1
  | .mulByConstant a k => (c.mul_by_constant a k).1
  | .negRow a => (c.neg a).1
  | .zeroTest i => c.zero_test i
  | .newInput v => (c.new_input v).1
  | .newWitness v => (c.new_witness v).1
  | .pad => c.pad_to_next_power_of_2

/-- In-range side conditions under which the Rust operation does not panic
(row arguments must refer to existing rows; `new_constant` reads row 1). -/
def cop_valid (c : Circuit) : COp → Prop
  | .newRow _ a b => a < c.num_rows ∧ b < c.num_rows
  | .newConstant _ => 1 < c.num_rows
  | .addRows a b => a < c.num_rows ∧ b < c.num_rows
  | .mulRows a b => a < c.num_rows ∧ b < c.num_rows
  | .mulByConstant a _ => a < c.num_rows
  | .negRow a => a < c.num_rows
  | .zeroTest i => i < c.num_rows
  | .newInput _ => True
  | .newWitness _ => True
  | .pad => True

instance (c : Circuit) (o : COp) : Decidable (cop_valid c o) := by
  cases o <;> unfold cop_valid <;> infer_instance

/-- Validity of a whole operation sequence, each op checked against the
circuit it is applied to. -/
def valid_ops : Circuit → List COp → Prop
  | _, [] => True
  | c, o :: r => cop_valid c o ∧ valid_ops (applyCOp c o) r

instance instDecidableValidOps : (c : Circuit) → (ops : List COp) → Decidable (valid_ops c ops)
  | _, [] => by unfold valid_ops; infer_instance
  | c, o :: r => by
    unfold valid_ops
    have := instDecidableValidOps (applyCOp c o) r
    infer_instance

/-- The circuit built from `Circuit::new` by an operation sequence. -/
def buildCircuit (ops : List COp) : Circuit :=
  ops.foldl applyCOp Circuit.new

/-- Number of input slots (counting `idx_a` and `idx_b` separately, over all
rows, self-references included) that reference row `i`. -/
def refCount (c : Circuit) (i : Nat) : Nat :=
  c.idx_a.count i + c.idx_b.count i

/-- Number of `input_maps` entries registered for row `i` (1 iff row `i` was
created by `new_input`). -/
def inputCount (c : Circuit) (i : Nat) : Nat :=
  (c.input_maps.filter (fun t => t.1 == i)).length

/-- The multiplicity balance: `mult[i]` plus one per `new_input`
registration equals the total slot-reference count of row `i`. -/
def mult_balanced (c : Circuit) : Prop :=
  ∀ i : Nat, c.mult.getD i 0 + inputCount c i = refCount c i

/-- The multiplicity the claim's wording predicts for row `i`: later rows
referencing `i` (each row counted once), plus one per zero-test attached to
row `i`, plus one if row `i` was created by `new_input`, plus one if it was
created by `new_witness` (witness rows are the self-referential rows not
registered in `input_maps`). -/
def claim_predicted_mult (c : Circuit) (i : Nat) : Nat :=
  ((List.range c.num_rows).filter
    (fun j => decide (i < j ∧ (c.idx_a.getD j 0 = i ∨ c.idx_b.getD j 0 = i)))).length
  + ((List.range c.num_rows).filter
    (fun j => decide (c.idx_a.getD j 0 = i ∧ c.idx_b.getD j 0 = j ∧ i < j))).length
  + (if 0 < inputCount c i then 1 else 0)
  + (if c.idx_a.getD i 0 = i ∧ c.idx_b.getD i 0 = 0 ∧ inputCount c i = 0
        ∧ 0 < i ∧ i < c.num_rows then 1 else 0)

/-- The wiring data of a circuit: row count, selector column, both index
columns and the multiplicity column. -/
def wiring (c : Circuit) : Nat × List F × List Nat × List Nat × List Nat :=
  (c.num_rows, c.op, c.idx_a, c.idx_b, c.mult)

/-- Wiring equivalence of circuits: everything except the value-carrying
columns (`output_wires`, `input_maps`) coincides. -/
def CEq (c d : Circuit) : Prop :=
  c.num_rows = d.num_rows ∧ c.op = d.op ∧ c.idx_a = d.idx_a ∧ c.idx_b = d.idx_b
  ∧ c.mult = d.mult ∧ c.constant_maps = d.constant_maps

/-- Wiring equivalence of processor states: wiring-equivalent circuits,
identical allocation tables and instance counts (the assignment vectors may
differ arbitrarily). -/
def WEq (s t : PState) : Prop :=
  CEq s.1 t.1 ∧ s.2.mapping = t.2.mapping ∧ s.2.num_input = t.2.num_input

/-- Wiring equivalence on optional states (`none` marking a panic). -/
def OWEq : Option PState → Option PState → Prop
  | none, none => True
  | some s, some t => WEq s t
  | _, _ => False

/-- The claim's version of the dispatch, written from the spec's words:
*every* linear combination handed to a multi-term processor is first sorted
by ascending variable index — including the two handed to
`process_r1cs_equal_constraint`. -/
def process_constraint_all_sorted (s : PState) (t3 : LinComb × LinComb × LinComb) :
    Option PState :=
  let lct_a := get_linear_combination_type t3.1
  let lct_b := get_linear_combination_type t3.2.1
  if lct_a = .NULLABLE ∨ lct_b = .NULLABLE then
    some (process_r1cs_addition_constraint s (sort_linear_combinations t3.2.2))
  else
    match lct_a, lct_b with
    | .CONSTANT a_constant, _ =>
      process_r1cs_equal_constraint s (sort_linear_combinations t3.2.1) a_constant
        (sort_linear_combinations t3.2.2)
    | _, .CONSTANT b_constant =>
      process_r1cs_equal_constraint s (sort_linear_combinations t3.1) b_constant
        (sort_linear_combinations t3.2.2)
    | _, _ =>
      process_r1cs_multiplication_constraint s
        (sort_linear_combinations t3.1) (sort_linear_combinations t3.2.1)
        (sort_linear_combinations t3.2.2)

/-- `generate_circuit_core` with the spec's fully-sorting dispatch. -/
def generate_circuit_sorted (num_input : Nat) (assignments : List F)
    (m : R1CSMatrices) : Option Circuit :=
  (m.triples.foldlM process_constraint_all_sorted
    (initial_state num_input assignments)).map Prod.fst

/-- A concrete instance whose single constraint takes the CONSTANT branch
with an unsorted `b`: `2 · (x₂ + x₁) = 0` with `b = [(1,2),(1,1)]` listed
out of index order. -/
def unsorted_instance : R1CSMatrices :=
  ⟨[[((2 : F), 0)]], [[((1 : F), 2), ((1 : F), 1)]], [[]]⟩

/-- Is the classification a CONSTANT? -/
def is_constant_lct : LinearCombinationType → Bool
  | .CONSTANT _ => true
  | _ => false

/-- A triple is `constant_branch_sorted` when the linear combinations that
the CONSTANT branches pass unsorted happen to be sorted already. -/
def constant_branch_sorted (t3 : LinComb × LinComb × LinComb) : Prop :=
  if get_linear_combination_type t3.1 = LinearCombinationType.NULLABLE
      ∨ get_linear_combination_type t3.2.1 = LinearCombinationType.NULLABLE then True
  else if is_constant_lct (get_linear_combination_type t3.1) then
    sort_linear_combinations t3.2.1 = t3.2.1 ∧ sort_linear_combinations t3.2.2 = t3.2.2
  else if is_constant_lct (get_linear_combination_type t3.2.1) then
    sort_linear_combinations t3.1 = t3.1 ∧ sort_linear_combinations t3.2.2 = t3.2.2
  else True

instance (t3 : LinComb × LinComb × LinComb) : Decidable (constant_branch_sorted t3) := by
  unfold constant_branch_sorted
  by_cases h1 : get_linear_combination_type t3.1 = LinearCombinationType.NULLABLE
      ∨ get_linear_combination_type t3.2.1 = LinearCombinationType.NULLABLE
  · rw [if_pos h1]
    infer_instance
  · rw [if_neg h1]
    by_cases h2 : is_constant_lct (get_linear_combination_type t3.1) = true
    · rw [if_pos h2]
      infer_instance
    · rw [if_neg h2]
      by_cases h3 : is_constant_lct (get_linear_combination_type t3.2.1) = true
      · rw [if_pos h3]
        infer_instance
      · rw [if_neg h3]
        infer_instance

/-- `⟨lc, x⟩`: the value of a sparse linear combination under an assignment
(variable 0 is read from `x` like every other variable; the R1CS relation
fixes `x₀ = 1`). -/
def dotLC (x : List F) : LinComb → F
  | [] => 0
  | t :: r => t.1 * x.getD t.2 0 + dotLC x r

/-- The value of a `csOf`-style list of `(variable, coefficient)` pairs. -/
def csSum (x : List F) : List (Nat × F) → F
  | [] => 0
  | e :: r => e.2 * x.getD e.1 0 + csSum x r

/-- The R1CS relation `(A·x) ⊙ (B·x) = (C·x)` over M31. -/
def r1cs_satisfied (x : List F) (m : R1CSMatrices) : Prop :=
  ∀ t3 ∈ m.triples, dotLC x t3.1 * dotLC x t3.2.1 = dotLC x t3.2.2

/-- A linear combination is `goodLC` when it does not collapse to row 0
while carrying a non-zero constant: if it has no usable variable term
(`csOf = []`, i.e. every non-constant term has coefficient 0) then its
constant sum is 0.  `reduce_coefs` returns row 0 (value 0) whenever
`csOf = []`, silently dropping the constant sum. -/
def goodLC (lc : LinComb) : Prop :=
  csOf lc = [] → ksum lc = 0

instance (lc : LinComb) : Decidable (goodLC lc) := by
  unfold goodLC
  infer_instance

/-- The side condition of the amended C1, shaped after the dispatch: the
linear combinations that the taken branch reduces to rows must be
`goodLC` (the addition branch needs nothing). -/
def tripleOk (t3 : LinComb × LinComb × LinComb) : Prop :=
  if get_linear_combination_type t3.1 = LinearCombinationType.NULLABLE
      ∨ get_linear_combination_type t3.2.1 = LinearCombinationType.NULLABLE then True
  else if is_constant_lct (get_linear_combination_type t3.1) then
    goodLC t3.2.1 ∧ goodLC t3.2.2
  else if is_constant_lct (get_linear_combination_type t3.2.1) then
    goodLC t3.1 ∧ goodLC t3.2.2
  else goodLC t3.1 ∧ goodLC t3.2.1 ∧ goodLC t3.2.2

instance (t3 : LinComb × LinComb × LinComb) : Decidable (tripleOk t3) := by
  unfold tripleOk
  by_cases h1 : get_linear_combination_type t3.1 = LinearCombinationType.NULLABLE
      ∨ get_linear_combination_type t3.2.1 = LinearCombinationType.NULLABLE
  · rw [if_pos h1]
    infer_instance
  · rw [if_neg h1]
    by_cases h2 : is_constant_lct (get_linear_combination_type t3.1) = true
    · rw [if_pos h2]
      infer_instance
    · rw [if_neg h2]
      by_cases h3 : is_constant_lct (get_linear_combination_type t3.2.1) = true
      · rw [if_pos h3]
        infer_instance
      · rw [if_neg h3]
        infer_instance

/-- The circuit-level part of the soundness invariant. -/
structure CInv (c : Circuit) : Prop where
  wf : c.well_formed
  two : 2 ≤ c.num_rows
  out0 : c.output_wires.getD 0 0 = 0
  out1 : c.output_wires.getD 1 0 = 1
  idx_lt : ∀ j < c.num_rows, c.idx_a.getD j 0 < c.num_rows ∧ c.idx_b.getD j 0 < c.num_rows
  rows_ok : ∀ j < c.num_rows, c.row_check j = true
  const_ok : ∀ e ∈ c.constant_maps, e.2 < c.num_rows ∧ c.output_wires.getD e.2 0 = e.1

/-- The full soundness invariant of a processor state under assignment
`x`: circuit invariant, allocation table bound to the assignment values,
and the allocator carrying `x`. -/
structure SoundInv (x : List F) (s : PState) : Prop where
  ci : CInv s.1
  val_ok : ∀ e ∈ s.2.mapping, e.2 < s.1.num_rows
    ∧ s.1.output_wires.getD e.2 0 = x.getD e.1 0
  asg : s.2.assignments = x

/-- Output-extension: the circuit only grows and existing output values are
unchanged. -/
def OutExt (c c' : Circuit) : Prop :=
  c.num_rows ≤ c'.num_rows ∧ ∀ j < c.num_rows, c'.output_wires.getD j 0 = c.output_wires.getD j 0

instance (x : List F) (m : R1CSMatrices) : Decidable (r1cs_satisfied x m) := by
  unfold r1cs_satisfied
  infer_instance

/-! ## C4 — bootstrap rows -/

/-- C4 counterexample: the claim asserts a two-row bootstrap (row 0 = 0,
row 1 = 1, `mult[0]` starting at 0, `mult[1]` starting at 2).  The code's
`Circuit::new` creates a single row whose multiplicity is already 2, so no
circuit starts with two rows, row 1 holding 1, and `mult[0] = 0`. -/

theorem circuit_new_two_row_counterexample :
    ¬ (2 ≤ Circuit.new.num_rows ∧ Circuit.new.output_wires.getD 1 0 = 1
        ∧ Circuit.new.mult.getD 0 0 = 0) := by decide

/-- C4 (amended): a freshly constructed circuit has exactly one bootstrap
row: row 0 holds the constant 0 with `op = 1`, self-referential inputs and
multiplicity 2; there is no bootstrap row holding 1 (the constant 1 arrives
later as the first input row allocated by the constraint processor). -/

theorem circuit_new_bootstrap :
    Circuit.new.num_rows = 1 ∧ Circuit.new.output_wires = [0]
    ∧ Circuit.new.op = [1] ∧ Circuit.new.idx_a = [0] ∧ Circuit.new.idx_b = [0]
    ∧ Circuit.new.mult = [2] ∧ Circuit.new.input_maps = []
    ∧ Circuit.new.constant_maps = [] := by decide

/-! ## C2 — padding -/

/-- C2 failing input: on a 3-row circuit, `pad_to_next_power_of_2` appends
`next_power_of_two(3) = 4` rows, yielding 7 rows — not a power of two (the
claim, and the assertion `num_rows.is_power_of_two()` in
`src/proof_system/mod.rs`, require a power of two ≥ 3, i.e. 4). -/

theorem pad_to_next_power_of_2_not_power_of_two :
    three_row_circuit.num_rows = 3
    ∧ three_row_circuit.pad_to_next_power_of_2.num_rows = 7
    ∧ ¬ ∃ k : Nat, (7 : Nat) = 2 ^ k := by
  refine ⟨by decide, by decide, ?_⟩
  rintro ⟨k, hk⟩
  match k, hk with
  | 0, h => exact absurd h (by decide)
  | 1, h => exact absurd h (by decide)
  | 2, h => exact absurd h (by decide)
  | (n + 3), h =>
    have h8 : (8 : Nat) ≤ 2 ^ (n + 3) := by
      calc (8 : Nat) = 2 ^ 3 := by decide
      _ ≤ 2 ^ (n + 3) := Nat.pow_le_pow_right (by decide) (by omega)
    omega

/-! ## C6 — linear-combination classification -/

/-- C6 counterexample: the row `[(0, 1)]` (a single non-constant term with
coefficient zero, constant part zero) is classified VARIABLE, not NULLABLE:
`get_linear_combination_type` counts every non-constant term, including
those with coefficient zero. -/

theorem lct_zero_coeff_counterexample :
    get_linear_combination_type [((0 : F), 1)] = LinearCombinationType.VARIABLE
    ∧ ksum [((0 : F), 1)] = 0
    ∧ get_linear_combination_type [((0 : F), 1)] ≠ LinearCombinationType.NULLABLE := by
  decide

/-- C6 (amended): `get_linear_combination_type` returns VARIABLE iff the row
has at least one non-constant term (regardless of its coefficient, zero
included), NULLABLE iff it has no non-constant term and zero constant sum,
and CONSTANT k iff it has no non-constant term and non-zero constant sum
k. -/

theorem get_linear_combination_type_characterization (row : LinComb) :
    (get_linear_combination_type row = LinearCombinationType.VARIABLE
      ↔ ∃ t ∈ row, t.2 ≠ 0)
    ∧ (get_linear_combination_type row = LinearCombinationType.NULLABLE
      ↔ (∀ t ∈ row, t.2 = 0) ∧ ksum row = 0)
    ∧ ∀ k : F, get_linear_combination_type row = LinearCombinationType.CONSTANT k
      ↔ (∀ t ∈ row, t.2 = 0) ∧ ksum row = k ∧ k ≠ 0 := by
  have hzero : nonconstCount row = 0 ↔ ∀ t ∈ row, t.2 = 0 := by
    unfold nonconstCount
    rw [List.length_eq_zero, List.filter_eq_nil_iff]
    simp
  have hcount : 0 < nonconstCount row ↔ ∃ t ∈ row, t.2 ≠ 0 := by
    rw [Nat.pos_iff_ne_zero, Ne, hzero]
    push_neg
    simp
  unfold get_linear_combination_type
  refine ⟨?_, ?_, ?_⟩
  · constructor
    · intro h
      by_contra hq
      rw [← hcount] at hq
      rw [if_neg hq] at h
      split at h <;> simp_all
    · intro h
      rw [if_pos (hcount.mpr h)]
  · constructor
    · intro h
      split at h
      · simp_all
      · split at h
        · simp_all
        · rename_i hn hk
          refine ⟨hzero.mp (by omega), by simpa using hk⟩
    · rintro ⟨h1, h2⟩
      have hc0 : nonconstCount row = 0 := hzero.mpr h1
      rw [if_neg (by omega), if_neg (by simp [h2])]
  · intro k
    constructor
    · intro h
      split at h
      · simp_all
      · split at h
        · rename_i hn hk
          cases h
          exact ⟨hzero.mp (by omega), rfl, hk⟩
        · simp_all
    · rintro ⟨h1, h2, h3⟩
      have hc0 : nonconstCount row = 0 := hzero.mpr h1
      rw [if_neg (by omega), if_pos (by rwa [h2]), h2]

/-! ## C8 — witness value reduction -/

/-- C8 counterexample: on a well-formed `.wtns` whose single witness value is
2^32, the reader yields 0 (the Rust `as u32` cast truncates before the field
conversion), while 2^32 reduced modulo p = 2^31 − 1 is 2. -/

theorem witness_read_truncation_counterexample :
    witness_read wtns_ex = some [(0 : F)]
    ∧ readLE wtns_ex 52 8 = 4294967296
    ∧ ((readLE wtns_ex 52 8 : Nat) : F) = 2
    ∧ witness_read wtns_ex ≠ some [((readLE wtns_ex 52 8 : Nat) : F)] := by
  refine ⟨by decide, by decide, ?_, ?_⟩
  · have h : readLE wtns_ex 52 8 = 4294967296 := by decide
    rw [h]; decide
  · have h : readLE wtns_ex 52 8 = 4294967296 := by decide
    rw [h]
    intro hc
    have h0 : witness_read wtns_ex = some [(0 : F)] := by decide
    rw [h0] at hc
    have : (0 : F) = ((4294967296 : Nat) : F) := by
      simpa using hc
    exact absurd this.symm (by decide)

/-- C8 (amended): every value the witness reader returns is the
corresponding little-endian u64 of section 2 truncated to its low 32 bits
(`as u32`) and then reduced modulo p; the full u64 is reduced mod p only
when it is < 2^32. -/

theorem witness_read_values (bs : List Nat) (ws : List F) (i : Nat)
    (h : witness_read bs = some ws) (hi : i < ws.length) :
    ws.getD i 0 = ((readLE bs (52 + 8 * i) 8 % 4294967296 : Nat) : F) := by
  unfold witness_read at h
  split at h
  · have hw : ws = (List.range (readLE bs 36 4)).map
        (fun i => ((readLE bs (52 + 8 * i) 8 % 4294967296 : Nat) : F)) :=
      (Option.some.injEq _ _).mp h.symm
    subst hw
    rw [List.length_map, List.length_range] at hi
    rw [List.getD_eq_getElem _ _ (by simpa using hi)]
    simp
  · exact absurd h (by simp)

/-- C8 witness: the amended statement evaluated on the concrete `.wtns`
stream `wtns_ex` at index 0. -/

theorem witness_read_values_witness :
    witness_read wtns_ex = some [(0 : F)] ∧ 0 < ([(0 : F)]).length
    ∧ ([(0 : F)]).getD 0 0 = ((readLE wtns_ex (52 + 8 * 0) 8 % 4294967296 : Nat) : F) :=
  ⟨by decide, by decide, witness_read_values wtns_ex [(0 : F)] 0 (by decide) (by decide)⟩

/-! ## C9 — zero_test semantics -/

/-- C9: `zero_test(i)` appends exactly one helper row `h` at the old
`num_rows` with `op = 1, idx_a = i, idx_b = h, out = 0, mult = 1` and
increments `mult[i]`; the helper row passes the local row check iff
`out[i] = 0`, and consequently `is_constraint_satisfied` can only return
true when `out[i] = 0`. -/

theorem zero_test_semantics (c : Circuit) (i : Nat) (hw : c.well_formed)
    (hi : i < c.num_rows) :
    (c.zero_test i).num_rows = c.num_rows + 1
    ∧ (c.zero_test i).op = c.op ++ [1]
    ∧ (c.zero_test i).idx_a = c.idx_a ++ [i]
    ∧ (c.zero_test i).idx_b = c.idx_b ++ [c.num_rows]
    ∧ (c.zero_test i).output_wires = c.output_wires ++ [0]
    ∧ (c.zero_test i).mult = c.mult.set i (c.mult.getD i 0 + 1) ++ [1]
    ∧ ((c.zero_test i).row_check c.num_rows = true ↔ c.output_wires.getD i 0 = 0)
    ∧ ((c.zero_test i).is_constraint_satisfied = true → c.output_wires.getD i 0 = 0) := by
  obtain ⟨hlo, hlop, hla, hlb, hlm⟩ := hw
  have hmult : (c.zero_test i).mult = c.mult.set i (c.mult.getD i 0 + 1) ++ [1] := by
    simp only [Circuit.zero_test, Circuit.increase_output_count]
    rw [List.getD_append _ _ _ _ (by omega), List.set_append_left _ _ (by omega)]
  have hop : (c.op ++ [1]).getD c.num_rows 0 = 1 := by
    rw [List.getD_append_right _ _ _ _ (by omega), hlop, Nat.sub_self]; rfl
  have hia : (c.idx_a ++ [i]).getD c.num_rows 0 = i := by
    rw [List.getD_append_right _ _ _ _ (by omega), hla, Nat.sub_self]; rfl
  have hib : (c.idx_b ++ [c.num_rows]).getD c.num_rows 0 = c.num_rows := by
    rw [List.getD_append_right _ _ _ _ (by omega), hlb, Nat.sub_self]; rfl
  have hoi : (c.output_wires ++ [(0 : F)]).getD i 0 = c.output_wires.getD i 0 :=
    List.getD_append _ _ _ _ (by omega)
  have hon : (c.output_wires ++ [(0 : F)]).getD c.num_rows 0 = 0 := by
    rw [List.getD_append_right _ _ _ _ (by omega), hlo, Nat.sub_self]; rfl
  have hcheck : (c.zero_test i).row_check c.num_rows = true
      ↔ c.output_wires.getD i 0 = 0 := by
    simp only [Circuit.zero_test, Circuit.increase_output_count, Circuit.row_check,
      Circuit.get_output_wire]
    rw [decide_eq_true_iff, hop, hia, hib, hoi, hon]
    constructor
    · intro h
      have h' : c.output_wires.getD i 0 = 0 := by linear_combination h
      exact h'
    · intro h
      rw [h]; ring
  refine ⟨by simp [Circuit.zero_test, Circuit.increase_output_count],
    by simp [Circuit.zero_test, Circuit.increase_output_count],
    by simp [Circuit.zero_test, Circuit.increase_output_count],
    by simp [Circuit.zero_test, Circuit.increase_output_count],
    by simp [Circuit.zero_test, Circuit.increase_output_count],
    hmult, hcheck, ?_⟩
  intro hsat
  unfold Circuit.is_constraint_satisfied at hsat
  simp only [Bool.and_eq_true, List.all_eq_true] at hsat
  have hn : (c.zero_test i).num_rows = c.num_rows + 1 := by
    simp [Circuit.zero_test, Circuit.increase_output_count]
  have hm : c.num_rows ∈ List.range (c.zero_test i).num_rows := by
    rw [hn]; exact List.mem_range.mpr (Nat.lt_succ_self _)
  exact hcheck.mp (hsat.2 _ hm)

/-- C9 witness: `zero_test` applied to row 0 of the fresh circuit. -/

theorem zero_test_semantics_witness :
    Circuit.new.well_formed ∧ 0 < Circuit.new.num_rows
    ∧ ((Circuit.new.zero_test 0).row_check Circuit.new.num_rows = true
        ↔ Circuit.new.output_wires.getD 0 0 = 0) :=
  ⟨by decide, by decide,
    (zero_test_semantics Circuit.new 0 (by decide) (by decide)).2.2.2.2.2.2.1⟩

/-! ## C10 — new_constant scales by row 1's output -/

/-- `allocator_get` preserves the value at row 1 (the circuit only ever
grows by appended rows). -/

theorem allocator_get_preserves_row_one (s : PState) (i : Nat)
    (h2 : 2 ≤ s.1.output_wires.length) :
    (allocator_get s i).1.1.output_wires.getD 1 0 = s.1.output_wires.getD 1 0
    ∧ 2 ≤ (allocator_get s i).1.1.output_wires.length := by
  unfold allocator_get
  cases hl : s.2.mapping.lookup i with
  | some v => exact ⟨rfl, h2⟩
  | none =>
    by_cases hlt : i < s.2.num_input
    · simp only [hlt, if_true, Circuit.new_input, Circuit.increase_output_count]
      exact ⟨List.getD_append _ _ _ _ (by omega), by simp; omega⟩
    · simp only [hlt, if_false, Circuit.new_witness, Circuit.increase_output_count]
      exact ⟨List.getD_append _ _ _ _ (by omega), by simp; omega⟩

/-- Folding `allocator_get` over any index list preserves the value at
row 1. -/

theorem fold_allocator_get_preserves_row_one (l : List Nat) (s : PState)
    (h2 : 2 ≤ s.1.output_wires.length) :
    (l.foldl (fun s i => (allocator_get s i).1) s).1.output_wires.getD 1 0
      = s.1.output_wires.getD 1 0
    ∧ 2 ≤ (l.foldl (fun s i => (allocator_get s i).1) s).1.output_wires.length := by
  induction l generalizing s with
  | nil => exact ⟨rfl, h2⟩
  | cons j t ih =>
    have h := allocator_get_preserves_row_one s j h2
    simpa only [List.foldl_cons, h.1] using ih _ h.2

/-- C10: on a cache miss, `new_constant(k)` appends `new_row(k, 1, 0)`,
whose output is `k · out[1]` (row 0 holding 0); it equals `k` only under
the precondition `out[1] = 1`.  The `Circuit` interface itself does not
provide `out[1] = 1`; it holds in `generate_circuit` because the processor
allocates R1CS variable 0 (the "one" variable) as the first input row, so
after the instance-allocation loop row 1 carries `assignments[0]`. -/

theorem new_constant_scales_row_one (c : Circuit) (k : F)
    (hw : c.well_formed) (hmiss : c.constant_maps.lookup k = none)
    (h0 : c.output_wires.getD 0 0 = 0) :
    ((c.new_constant k).2 = c.num_rows
      ∧ (c.new_constant k).1.output_wires.getD c.num_rows 0
          = k * c.output_wires.getD 1 0
      ∧ (c.output_wires.getD 1 0 = 1 →
          (c.new_constant k).1.output_wires.getD c.num_rows 0 = k))
    ∧ ∀ (num_input : Nat) (x : List F), 1 ≤ num_input →
        (initial_state num_input x).1.output_wires.getD 1 0 = x.getD 0 0 := by
  constructor
  · obtain ⟨hlo, _, _, _, _⟩ := hw
    have hval : (c.new_constant k).1.output_wires.getD c.num_rows 0
        = k * c.output_wires.getD 1 0 := by
      unfold Circuit.new_constant
      rw [hmiss]
      simp only [Circuit.new_row, Circuit.increase_output_count, Circuit.get_output_wire]
      rw [List.getD_append_right _ _ _ _ (by omega), hlo, Nat.sub_self,
        List.getD_cons_zero, h0]
      ring
    refine ⟨?_, hval, fun h1 => by rw [hval, h1, mul_one]⟩
    unfold Circuit.new_constant
    rw [hmiss]
    rfl
  · intro num_input x h1
    unfold initial_state
    obtain ⟨n', hn'⟩ : ∃ n', num_input = n' + 1 := ⟨num_input - 1, by omega⟩
    subst hn'
    rw [List.range_succ_eq_map, List.foldl_cons]
    have hfirst : (allocator_get (Circuit.new, OnDemandAllocator.new x (n' + 1)) 0).1.1.output_wires
        = [0, x.getD 0 0] := by
      simp [allocator_get, OnDemandAllocator.new, Circuit.new_input, Circuit.new,
        Circuit.increase_output_count]
    have hfold := fold_allocator_get_preserves_row_one ((List.range n').map Nat.succ)
      (allocator_get (Circuit.new, OnDemandAllocator.new x (n' + 1)) 0).1
      (by rw [hfirst]; simp)
    rw [hfold.1, hfirst]
    rfl

/-- C10 witness: a fresh-ish circuit with row 1 present (one input row of
value 1), constant 5 uncached. -/

theorem new_constant_scales_row_one_witness :
    ((Circuit.new.new_input 1).1.well_formed
      ∧ (Circuit.new.new_input 1).1.constant_maps.lookup 5 = none
      ∧ (Circuit.new.new_input 1).1.output_wires.getD 0 0 = 0)
    ∧ ((Circuit.new.new_input 1).1.new_constant 5).1.output_wires.getD
        (Circuit.new.new_input 1).1.num_rows 0
        = 5 * (Circuit.new.new_input 1).1.output_wires.getD 1 0 :=
  ⟨⟨by decide, by decide, by decide⟩,
    (new_constant_scales_row_one (Circuit.new.new_input 1).1 5
      (by decide) (by decide) (by decide)).1.2.1⟩

/-! ## C3 — the multiplicity contract -/

/-- Indicator-`if` commutes in its equality condition. -/

theorem if_eq_comm_ind (a b x : Nat) : (if a = b then x else 0) = if b = a then x else 0 := by
  by_cases h : a = b
  · rw [if_pos h, if_pos h.symm]
  · rw [if_neg h, if_neg (fun hh => h hh.symm)]

/-- `getD` after a unit increment at `j` (`mult[j] += 1`). -/

theorem getD_set_incr (l : List Nat) (j i : Nat) (hj : j < l.length) :
    (l.set j (l.getD j 0 + 1)).getD i 0 = l.getD i 0 + if j = i then 1 else 0 := by
  by_cases h : j = i
  · subst h
    rw [if_pos rfl, List.getD_eq_getElem?_getD, List.getElem?_set_self hj]
    rw [List.getD_eq_getElem?_getD]
    rfl
  · rw [if_neg h, List.getD_eq_getElem?_getD, List.getElem?_set_ne h,
      List.getD_eq_getElem?_getD]
    omega

/-- `getD` after appending one element. -/

theorem getD_append_singleton (l : List Nat) (x i : Nat) :
    (l ++ [x]).getD i 0 = l.getD i 0 + if i = l.length then x else 0 := by
  rcases lt_trichotomy i l.length with h | h | h
  · rw [List.getD_append _ _ _ _ h, if_neg (by omega)]
    omega
  · rw [List.getD_append_right _ _ _ _ (by omega), h, Nat.sub_self, if_pos rfl,
      List.getD_cons_zero, List.getD_eq_default _ _ (by omega)]
    omega
  · have h1 : ([x] : List Nat).getD (i - l.length) 0 = 0 :=
      List.getD_eq_default _ _ (by simp; omega)
    have h2 : l.getD i 0 = 0 := List.getD_eq_default _ _ (by omega)
    rw [List.getD_append_right _ _ _ _ (by omega), if_neg (by omega), h1, h2]

/-- `count` after appending one element. -/

theorem count_append_singleton (l : List Nat) (x i : Nat) :
    (l ++ [x]).count i = l.count i + if x = i then 1 else 0 := by
  rw [List.count_append, List.count_singleton]
  by_cases h : x = i
  · rw [if_pos h, if_pos (by simpa using h)]
  · rw [if_neg h, if_neg (by simpa using h)]

/-- `filter`-length after appending one element. -/

theorem filter_length_append_singleton (l : List (Nat × F)) (e : Nat × F) (i : Nat) :
    ((l ++ [e]).filter (fun t => t.1 == i)).length
      = (l.filter (fun t => t.1 == i)).length + if e.1 = i then 1 else 0 := by
  rw [List.filter_append, List.length_append]
  by_cases h : e.1 = i
  · rw [if_pos h]
    have hb : (e.1 == i) = true := by simpa using h
    simp [List.filter, hb]
  · rw [if_neg h]
    have hb : (e.1 == i) = false := by simpa using h
    simp [List.filter, hb]

/-- `new_row` preserves well-formedness and the multiplicity balance. -/

theorem new_row_preserves (c : Circuit) (opv : F) (a b : Nat)
    (hw : c.well_formed) (hbal : mult_balanced c)
    (ha : a < c.num_rows) (hb : b < c.num_rows) :
    (c.new_row opv a b).1.well_formed ∧ mult_balanced (c.new_row opv a b).1 := by
  obtain ⟨hlo, hlop, hla, hlb, hlm⟩ := hw
  constructor
  · refine ⟨?_, ?_, ?_, ?_, ?_⟩ <;>
      simp only [Circuit.new_row, Circuit.increase_output_count, List.length_set,
        List.length_append, List.length_singleton] <;> omega
  intro i
  have key : (c.new_row opv a b).1.mult.getD i 0
      = c.mult.getD i 0 + (if a = i then 1 else 0) + (if b = i then 1 else 0) := by
    simp only [Circuit.new_row, Circuit.increase_output_count]
    rw [getD_set_incr _ _ _ (by simp only [List.length_set, List.length_append,
        List.length_singleton]; omega),
      getD_set_incr _ _ _ (by simp only [List.length_append, List.length_singleton]; omega),
      getD_append_singleton]
    simp
  have hia : (c.new_row opv a b).1.idx_a = c.idx_a ++ [a] := rfl
  have hib : (c.new_row opv a b).1.idx_b = c.idx_b ++ [b] := rfl
  have him : (c.new_row opv a b).1.input_maps = c.input_maps := rfl
  unfold refCount inputCount
  rw [key, hia, hib, him, count_append_singleton, count_append_singleton]
  have hb0 := hbal i
  unfold refCount inputCount at hb0
  omega

/-- `zero_test` preserves well-formedness and the multiplicity balance. -/

theorem zero_test_preserves (c : Circuit) (t : Nat)
    (hw : c.well_formed) (hbal : mult_balanced c) (ht : t < c.num_rows) :
    (c.zero_test t).well_formed ∧ mult_balanced (c.zero_test t) := by
  obtain ⟨hlo, hlop, hla, hlb, hlm⟩ := hw
  constructor
  · refine ⟨?_, ?_, ?_, ?_, ?_⟩ <;>
      simp only [Circuit.zero_test, Circuit.increase_output_count, List.length_set,
        List.length_append, List.length_singleton] <;> omega
  intro i
  have key : (c.zero_test t).mult.getD i 0
      = c.mult.getD i 0 + (if c.num_rows = i then 1 else 0) + (if t = i then 1 else 0) := by
    simp only [Circuit.zero_test, Circuit.increase_output_count]
    rw [getD_set_incr _ _ _ (by simp only [List.length_append, List.length_singleton]; omega),
      getD_append_singleton, hlm, if_eq_comm_ind i c.num_rows 1]
  have hia : (c.zero_test t).idx_a = c.idx_a ++ [t] := rfl
  have hib : (c.zero_test t).idx_b = c.idx_b ++ [c.num_rows] := rfl
  have him : (c.zero_test t).input_maps = c.input_maps := rfl
  unfold refCount inputCount
  rw [key, hia, hib, him, count_append_singleton, count_append_singleton]
  have hb0 := hbal i
  unfold refCount inputCount at hb0
  omega

/-- `new_input` preserves well-formedness and the multiplicity balance. -/

theorem new_input_preserves (c : Circuit) (v : F)
    (hw : c.well_formed) (hbal : mult_balanced c) :
    (c.new_input v).1.well_formed ∧ mult_balanced (c.new_input v).1 := by
  obtain ⟨hlo, hlop, hla, hlb, hlm⟩ := hw
  constructor
  · refine ⟨?_, ?_, ?_, ?_, ?_⟩ <;>
      simp only [Circuit.new_input, Circuit.increase_output_count, List.length_set,
        List.length_append, List.length_singleton] <;> omega
  intro i
  have key : (c.new_input v).1.mult.getD i 0
      = c.mult.getD i 0 + (if 0 = i then 1 else 0) := by
    simp only [Circuit.new_input, Circuit.increase_output_count]
    rw [getD_set_incr _ _ _ (by simp only [List.length_append, List.length_singleton]; omega),
      getD_append_singleton]
    simp
  have hia : (c.new_input v).1.idx_a = c.idx_a ++ [c.num_rows] := rfl
  have hib : (c.new_input v).1.idx_b = c.idx_b ++ [0] := rfl
  have him : (c.new_input v).1.input_maps = c.input_maps ++ [(c.num_rows, v)] := rfl
  unfold refCount inputCount
  rw [key, hia, hib, him, count_append_singleton, count_append_singleton,
    filter_length_append_singleton]
  dsimp only
  have hb0 := hbal i
  unfold refCount inputCount at hb0
  omega

/-- `new_witness` preserves well-formedness and the multiplicity balance. -/

theorem new_witness_preserves (c : Circuit) (v : F)
    (hw : c.well_formed) (hbal : mult_balanced c) :
    (c.new_witness v).1.well_formed ∧ mult_balanced (c.new_witness v).1 := by
  obtain ⟨hlo, hlop, hla, hlb, hlm⟩ := hw
  constructor
  · refine ⟨?_, ?_, ?_, ?_, ?_⟩ <;>
      simp only [Circuit.new_witness, Circuit.increase_output_count, List.length_set,
        List.length_append, List.length_singleton] <;> omega
  intro i
  have key : (c.new_witness v).1.mult.getD i 0
      = c.mult.getD i 0 + (if c.num_rows = i then 1 else 0) + (if 0 = i then 1 else 0) := by
    simp only [Circuit.new_witness, Circuit.increase_output_count]
    rw [getD_set_incr _ _ _ (by simp only [List.length_append, List.length_singleton]; omega),
      getD_append_singleton, hlm, if_eq_comm_ind i c.num_rows 1]
  have hia : (c.new_witness v).1.idx_a = c.idx_a ++ [c.num_rows] := rfl
  have hib : (c.new_witness v).1.idx_b = c.idx_b ++ [0] := rfl
  have him : (c.new_witness v).1.input_maps = c.input_maps := rfl
  unfold refCount inputCount
  rw [key, hia, hib, him, count_append_singleton, count_append_singleton]
  have hb0 := hbal i
  unfold refCount inputCount at hb0
  omega

/-- A single pad row preserves well-formedness and the multiplicity
balance. -/

theorem padRow_preserves (c : Circuit)
    (hw : c.well_formed) (hbal : mult_balanced c) :
    c.padRow.well_formed ∧ mult_balanced c.padRow := by
  obtain ⟨hlo, hlop, hla, hlb, hlm⟩ := hw
  constructor
  · refine ⟨?_, ?_, ?_, ?_, ?_⟩ <;>
      simp only [Circuit.padRow, Circuit.increase_output_count, List.length_set,
        List.length_append, List.length_singleton] <;> omega
  intro i
  have key : c.padRow.mult.getD i 0
      = c.mult.getD i 0 + (if 0 = i then 1 else 0) + (if 0 = i then 1 else 0) := by
    simp only [Circuit.padRow, Circuit.increase_output_count]
    rw [getD_set_incr _ _ _ (by simp only [List.length_set, List.length_append,
        List.length_singleton]; omega),
      getD_set_incr _ _ _ (by simp only [List.length_append, List.length_singleton]; omega),
      getD_append_singleton]
    simp
  have hia : c.padRow.idx_a = c.idx_a ++ [0] := rfl
  have hib : c.padRow.idx_b = c.idx_b ++ [0] := rfl
  have him : c.padRow.input_maps = c.input_maps := rfl
  unfold refCount inputCount
  rw [key, hia, hib, him, count_append_singleton, count_append_singleton]
  have hb0 := hbal i
  unfold refCount inputCount at hb0
  omega

/-- Iterated pad rows preserve well-formedness and the multiplicity
balance. -/

theorem padRow_iter_preserves (n : Nat) (c : Circuit)
    (hw : c.well_formed) (hbal : mult_balanced c) :
    (Circuit.padRow^[n] c).well_formed ∧ mult_balanced (Circuit.padRow^[n] c) := by
  induction n generalizing c with
  | zero => exact ⟨hw, hbal⟩
  | succ m ih =>
    rw [Function.iterate_succ_apply]
    exact ih c.padRow (padRow_preserves c hw hbal).1 (padRow_preserves c hw hbal).2

/-- Every valid public operation preserves well-formedness and the
multiplicity balance. -/

theorem applyCOp_preserves (c : Circuit) (o : COp)
    (hw : c.well_formed) (hbal : mult_balanced c) (hv : cop_valid c o) :
    (applyCOp c o).well_formed ∧ mult_balanced (applyCOp c o) := by
  cases o with
  | newRow opv a b => exact new_row_preserves c opv a b hw hbal hv.1 hv.2
  | newConstant k =>
    show (c.new_constant k).1.well_formed ∧ mult_balanced (c.new_constant k).1
    have hv' : 1 < c.num_rows := hv
    unfold Circuit.new_constant
    cases hl : c.constant_maps.lookup k with
    | some idx => exact ⟨hw, hbal⟩
    | none =>
      have h := new_row_preserves c k 1 0 hw hbal hv' (by omega)
      exact ⟨h.1, fun i => h.2 i⟩
  | addRows a b => exact new_row_preserves c 1 a b hw hbal hv.1 hv.2
  | mulRows a b => exact new_row_preserves c 0 a b hw hbal hv.1 hv.2
  | mulByConstant a k =>
    have ha : a < c.num_rows := hv
    exact new_row_preserves c k a 0 hw hbal ha (by omega)
  | negRow a =>
    have ha : a < c.num_rows := hv
    exact new_row_preserves c (-1) a 0 hw hbal ha (by omega)
  | zeroTest t => exact zero_test_preserves c t hw hbal hv
  | newInput v => exact new_input_preserves c v hw hbal
  | newWitness v => exact new_witness_preserves c v hw hbal
  | pad =>
    show c.pad_to_next_power_of_2.well_formed ∧ mult_balanced c.pad_to_next_power_of_2
    unfold Circuit.pad_to_next_power_of_2
    exact padRow_iter_preserves _ c hw hbal

/-- C3 (amended): for every circuit built from `Circuit::new` by a valid
sequence of public operations, `mult[i]` plus one per `new_input`
registration of row `i` equals the total number of input slots (`idx_a` and
`idx_b` counted separately, over all rows, self-references included) that
reference row `i`. -/

theorem mult_reference_invariant (ops : List COp) (h : valid_ops Circuit.new ops) :
    ∀ i : Nat, (buildCircuit ops).mult.getD i 0 + inputCount (buildCircuit ops) i
      = refCount (buildCircuit ops) i := by
  have main : ∀ (l : List COp) (c : Circuit), c.well_formed → mult_balanced c →
      valid_ops c l → (l.foldl applyCOp c).well_formed ∧ mult_balanced (l.foldl applyCOp c) := by
    intro l
    induction l with
    | nil => exact fun c hw hbal _ => ⟨hw, hbal⟩
    | cons o r ih =>
      intro c hw hbal hvl
      obtain ⟨hv, hrest⟩ := hvl
      have h1 := applyCOp_preserves c o hw hbal hv
      exact ih (applyCOp c o) h1.1 h1.2 hrest
  have hnew : Circuit.new.well_formed ∧ mult_balanced Circuit.new := by
    constructor
    · exact ⟨rfl, rfl, rfl, rfl, rfl⟩
    · intro i
      match i with
      | 0 => decide
      | n + 1 =>
        show List.getD [2] (n + 1) 0 + inputCount Circuit.new (n + 1)
          = refCount Circuit.new (n + 1)
        unfold refCount inputCount Circuit.new
        rw [List.getD_eq_default _ _ (by simp), List.count_singleton]
        simp
  exact (main ops Circuit.new hnew.1 hnew.2 h).2

/-- C3 counterexample: after `new_input`, the input row's multiplicity is 0,
not the 1 predicted by the claim's "+1 if row i was created by new_input"
(the +1 for an input row is supplied externally through `input_maps`, not
stored in `mult`). -/

theorem mult_contract_counterexample :
    (buildCircuit [COp.newInput 5]).mult.getD 1 0 = 0
    ∧ claim_predicted_mult (buildCircuit [COp.newInput 5]) 1 = 1
    ∧ (buildCircuit [COp.newInput 5]).mult.getD 1 0
        ≠ claim_predicted_mult (buildCircuit [COp.newInput 5]) 1 := by decide

/-- C3 witness: the amended invariant on a small concrete circuit (an input
row followed by a zero test of it), evaluated at row 1. -/

theorem mult_reference_invariant_witness :
    valid_ops Circuit.new [COp.newInput 5, COp.zeroTest 1]
    ∧ (buildCircuit [COp.newInput 5, COp.zeroTest 1]).mult.getD 1 0
        + inputCount (buildCircuit [COp.newInput 5, COp.zeroTest 1]) 1
      = refCount (buildCircuit [COp.newInput 5, COp.zeroTest 1]) 1 :=
  ⟨by decide, mult_reference_invariant [COp.newInput 5, COp.zeroTest 1] (by decide) 1⟩

/-! ## C5 — mode independence / wiring noninterference -/

/-- `new_row` acts identically on the wiring of wiring-equivalent
circuits. -/

theorem new_row_wiring (c d : Circuit) (h : CEq c d) (opv : F)
    (a a' : Nat) (hA : a = a') (b b' : Nat) (hB : b = b') :
    CEq (c.new_row opv a b).1 (d.new_row opv a' b').1
      ∧ (c.new_row opv a b).2 = (d.new_row opv a' b').2 := by
  subst hA
  subst hB
  obtain ⟨h1, h2, h3, h4, h5, h6⟩ := h
  unfold Circuit.new_row Circuit.increase_output_count CEq
  simp_all

/-- `new_constant` acts identically on the wiring (the caches agree). -/

theorem new_constant_wiring (c d : Circuit) (h : CEq c d) (k : F) :
    CEq (c.new_constant k).1 (d.new_constant k).1
      ∧ (c.new_constant k).2 = (d.new_constant k).2 := by
  have h6 : c.constant_maps = d.constant_maps := h.2.2.2.2.2
  unfold Circuit.new_constant
  rw [← h6]
  cases hl : c.constant_maps.lookup k with
  | some idx => exact ⟨h, rfl⟩
  | none =>
    have hr := new_row_wiring c d h k 1 1 rfl 0 0 rfl
    refine ⟨⟨hr.1.1, hr.1.2.1, hr.1.2.2.1, hr.1.2.2.2.1, hr.1.2.2.2.2.1, ?_⟩, hr.2⟩
    show (k, (c.new_row k 1 0).2) :: (c.new_row k 1 0).1.constant_maps
      = (k, (d.new_row k 1 0).2) :: (d.new_row k 1 0).1.constant_maps
    rw [hr.2, hr.1.2.2.2.2.2]

/-- `zero_test` acts identically on the wiring. -/

theorem zero_test_wiring (c d : Circuit) (h : CEq c d)
    (i i' : Nat) (hI : i = i') :
    CEq (c.zero_test i) (d.zero_test i') := by
  subst hI
  obtain ⟨h1, h2, h3, h4, h5, h6⟩ := h
  unfold Circuit.zero_test Circuit.increase_output_count CEq
  simp_all

/-- `new_input` acts identically on the wiring. -/

theorem new_input_wiring (c d : Circuit) (h : CEq c d) (v w : F) :
    CEq (c.new_input v).1 (d.new_input w).1 ∧ (c.new_input v).2 = (d.new_input w).2 := by
  obtain ⟨h1, h2, h3, h4, h5, h6⟩ := h
  unfold Circuit.new_input Circuit.increase_output_count CEq
  simp_all

/-- `new_witness` acts identically on the wiring. -/

theorem new_witness_wiring (c d : Circuit) (h : CEq c d) (v w : F) :
    CEq (c.new_witness v).1 (d.new_witness w).1
      ∧ (c.new_witness v).2 = (d.new_witness w).2 := by
  obtain ⟨h1, h2, h3, h4, h5, h6⟩ := h
  unfold Circuit.new_witness Circuit.increase_output_count CEq
  simp_all

/-- `allocator_get` acts identically on the wiring of wiring-equivalent
states. -/

theorem allocator_get_wiring (s t : PState) (h : WEq s t) (i : Nat) :
    WEq (allocator_get s i).1 (allocator_get t i).1
      ∧ (allocator_get s i).2 = (allocator_get t i).2 := by
  obtain ⟨hc, hm, hn⟩ := h
  unfold allocator_get
  rw [← hm, ← hn]
  cases hl : s.2.mapping.lookup i with
  | some v => exact ⟨⟨hc, hm, hn⟩, rfl⟩
  | none =>
    dsimp only
    by_cases hlt : i < s.2.num_input
    · rw [if_pos hlt, if_pos hlt]
      have hr := new_input_wiring s.1 t.1 hc (s.2.assignments.getD i 0) (t.2.assignments.getD i 0)
      exact ⟨⟨hr.1, by dsimp only; rw [hm, hr.2], hn⟩, hr.2⟩
    · rw [if_neg hlt, if_neg hlt]
      have hr := new_witness_wiring s.1 t.1 hc (s.2.assignments.getD i 0) (t.2.assignments.getD i 0)
      exact ⟨⟨hr.1, by dsimp only; rw [hm, hr.2], hn⟩, hr.2⟩

/-- `mul_by_constant` acts identically on the wiring. -/

theorem mul_by_constant_wiring (c d : Circuit) (h : CEq c d)
    (i i' : Nat) (hI : i = i') (k : F) :
    CEq (c.mul_by_constant i k).1 (d.mul_by_constant i' k).1
      ∧ (c.mul_by_constant i k).2 = (d.mul_by_constant i' k).2 :=
  new_row_wiring c d h k i i' hI 0 0 rfl

/-- `neg` acts identically on the wiring. -/

theorem neg_wiring (c d : Circuit) (h : CEq c d) (i i' : Nat) (hI : i = i') :
    CEq (c.neg i).1 (d.neg i').1 ∧ (c.neg i).2 = (d.neg i').2 :=
  new_row_wiring c d h (-1) i i' hI 0 0 rfl

/-- `add` acts identically on the wiring. -/

theorem add_wiring (c d : Circuit) (h : CEq c d)
    (a a' : Nat) (hA : a = a') (b b' : Nat) (hB : b = b') :
    CEq (c.add a b).1 (d.add a' b').1 ∧ (c.add a b).2 = (d.add a' b').2 :=
  new_row_wiring c d h 1 a a' hA b b' hB

/-- `mul` acts identically on the wiring. -/

theorem mul_wiring (c d : Circuit) (h : CEq c d)
    (a a' : Nat) (hA : a = a') (b b' : Nat) (hB : b = b') :
    CEq (c.mul a b).1 (d.mul a' b').1 ∧ (c.mul a b).2 = (d.mul a' b').2 :=
  new_row_wiring c d h 0 a a' hA b b' hB

/-- `reduce_step` acts identically on the wiring. -/

theorem reduce_step_wiring (s t : PState) (h : WEq s t) (x y : Nat) (hxy : x = y)
    (e : Nat × F) :
    WEq (reduce_step (s, x) e).1 (reduce_step (t, y) e).1
      ∧ (reduce_step (s, x) e).2 = (reduce_step (t, y) e).2 := by
  unfold reduce_step
  dsimp only
  have hg := allocator_get_wiring s t h e.1
  by_cases h1 : e.2 = 1
  · rw [if_pos h1, if_pos h1]
    have ha := add_wiring (allocator_get s e.1).1.1 (allocator_get t e.1).1.1 hg.1.1
      x y hxy (allocator_get s e.1).2 (allocator_get t e.1).2 hg.2
    exact ⟨⟨ha.1, hg.1.2.1, hg.1.2.2⟩, ha.2⟩
  · rw [if_neg h1, if_neg h1]
    have hmc := mul_by_constant_wiring (allocator_get s e.1).1.1 (allocator_get t e.1).1.1
      hg.1.1 (allocator_get s e.1).2 (allocator_get t e.1).2 hg.2 e.2
    have ha := add_wiring _ _ hmc.1 x y hxy _ _ hmc.2
    exact ⟨⟨ha.1, hg.1.2.1, hg.1.2.2⟩, ha.2⟩

/-- The `reduce_coefs` fold acts identically on the wiring. -/

theorem reduce_fold_wiring (l : List (Nat × F)) (s t : PState) (h : WEq s t)
    (x y : Nat) (hxy : x = y) :
    WEq (l.foldl reduce_step (s, x)).1 (l.foldl reduce_step (t, y)).1
      ∧ (l.foldl reduce_step (s, x)).2 = (l.foldl reduce_step (t, y)).2 := by
  induction l generalizing s t x y with
  | nil => exact ⟨h, hxy⟩
  | cons e r ih =>
    have hs := reduce_step_wiring s t h x y hxy e
    simp only [List.foldl_cons]
    have := ih (reduce_step (s, x) e).1 (reduce_step (t, y) e).1 hs.1
      (reduce_step (s, x) e).2 (reduce_step (t, y) e).2 hs.2
    simpa using this

/-- `reduce_coefs` acts identically on the wiring. -/

theorem reduce_coefs_wiring (s t : PState) (h : WEq s t) (c : LinComb) :
    WEq (reduce_coefs s c).1 (reduce_coefs t c).1
      ∧ (reduce_coefs s c).2 = (reduce_coefs t c).2 := by
  unfold reduce_coefs
  cases hcs : csOf c with
  | nil => exact ⟨h, rfl⟩
  | cons c0 rest =>
    dsimp only
    have hg := allocator_get_wiring s t h c0.1
    by_cases h1 : c0.2 = 1
    · rw [if_pos h1, if_pos h1]
      have hf := reduce_fold_wiring rest ((allocator_get s c0.1).1.1, (allocator_get s c0.1).1.2)
        ((allocator_get t c0.1).1.1, (allocator_get t c0.1).1.2) (by simpa using hg.1)
        (allocator_get s c0.1).2 (allocator_get t c0.1).2 hg.2
      by_cases hk : ksum c ≠ 0
      · rw [if_pos hk, if_pos hk]
        have hnc := new_constant_wiring _ _ hf.1.1 (ksum c)
        have ha := add_wiring _ _ hnc.1 _ _ hf.2 _ _ hnc.2
        exact ⟨⟨ha.1, hf.1.2.1, hf.1.2.2⟩, ha.2⟩
      · rw [if_neg hk, if_neg hk]
        exact hf
    · rw [if_neg h1, if_neg h1]
      have hmc := mul_by_constant_wiring (allocator_get s c0.1).1.1 (allocator_get t c0.1).1.1
        hg.1.1 (allocator_get s c0.1).2 (allocator_get t c0.1).2 hg.2 c0.2
      have hf := reduce_fold_wiring rest
        (((allocator_get s c0.1).1.1.mul_by_constant (allocator_get s c0.1).2 c0.2).1,
          (allocator_get s c0.1).1.2)
        (((allocator_get t c0.1).1.1.mul_by_constant (allocator_get t c0.1).2 c0.2).1,
          (allocator_get t c0.1).1.2)
        ⟨hmc.1, hg.1.2.1, hg.1.2.2⟩ _ _ hmc.2
      by_cases hk : ksum c ≠ 0
      · rw [if_pos hk, if_pos hk]
        have hnc := new_constant_wiring _ _ hf.1.1 (ksum c)
        have ha := add_wiring _ _ hnc.1 _ _ hf.2 _ _ hnc.2
        exact ⟨⟨ha.1, hf.1.2.1, hf.1.2.2⟩, ha.2⟩
      · rw [if_neg hk, if_neg hk]
        exact hf

/-- Allocation queries agree on allocators with identical mapping tables. -/

theorem is_allocated_congr (u v : OnDemandAllocator) (h : u.mapping = v.mapping) (j : Nat) :
    u.is_allocated j = v.is_allocated j := by
  unfold OnDemandAllocator.is_allocated
  rw [h]

/-- `process_r1cs_addition_constraint` acts identically on the wiring. -/

theorem process_addition_wiring (s t : PState) (h : WEq s t) (c : LinComb) :
    WEq (process_r1cs_addition_constraint s c) (process_r1cs_addition_constraint t c) := by
  unfold process_r1cs_addition_constraint
  dsimp only
  have hr := reduce_coefs_wiring s t h c
  exact ⟨zero_test_wiring _ _ hr.1.1 _ _ hr.2, hr.1.2.1, hr.1.2.2⟩

/-- The common tail of the equality processor acts identically on the
wiring. -/

theorem process_equal_after_swap_wiring (s t : PState) (h : WEq s t)
    (lhs : LinComb) (k : F) (cc : LinComb) :
    OWEq (process_r1cs_equal_after_swap s lhs k cc)
      (process_r1cs_equal_after_swap t lhs k cc) := by
  unfold process_r1cs_equal_after_swap
  dsimp only
  have hr := reduce_coefs_wiring s t h lhs
  have hmv : CEq (if k = 1 then ((reduce_coefs s lhs).1.1, (reduce_coefs s lhs).2)
        else (reduce_coefs s lhs).1.1.mul_by_constant (reduce_coefs s lhs).2 k).1
      (if k = 1 then ((reduce_coefs t lhs).1.1, (reduce_coefs t lhs).2)
        else (reduce_coefs t lhs).1.1.mul_by_constant (reduce_coefs t lhs).2 k).1
      ∧ (if k = 1 then ((reduce_coefs s lhs).1.1, (reduce_coefs s lhs).2)
        else (reduce_coefs s lhs).1.1.mul_by_constant (reduce_coefs s lhs).2 k).2
      = (if k = 1 then ((reduce_coefs t lhs).1.1, (reduce_coefs t lhs).2)
        else (reduce_coefs t lhs).1.1.mul_by_constant (reduce_coefs t lhs).2 k).2 := by
    by_cases h1 : k = 1
    · rw [if_pos h1, if_pos h1]
      exact ⟨hr.1.1, hr.2⟩
    · rw [if_neg h1, if_neg h1]
      exact mul_by_constant_wiring _ _ hr.1.1 _ _ hr.2 k
  have hcond : (cc.length = 1 ∧ ¬ (reduce_coefs t lhs).1.2.is_allocated (cc.headD (0, 0)).2)
      ↔ (cc.length = 1 ∧ ¬ (reduce_coefs s lhs).1.2.is_allocated (cc.headD (0, 0)).2) := by
    rw [is_allocated_congr _ _ hr.1.2.1]
  by_cases hb : cc.length = 1 ∧ ¬ (reduce_coefs s lhs).1.2.is_allocated (cc.headD (0, 0)).2
  · rw [if_pos hb, if_pos (hcond.mpr hb)]
    by_cases hc1 : (cc.headD (0, 0)).1 = 1
    · rw [if_pos hc1, if_pos hc1]
      exact ⟨hmv.1, by unfold OnDemandAllocator.set_allocated
                       dsimp only
                       rw [hmv.2, hr.1.2.1], hr.1.2.2⟩
    · rw [if_neg hc1, if_neg hc1]
      by_cases hc0 : (cc.headD (0, 0)).1 = 0
      · rw [if_pos hc0, if_pos hc0]
        trivial
      · rw [if_neg hc0, if_neg hc0]
        have hiv := mul_by_constant_wiring _ _ hmv.1 _ _ hmv.2 ((cc.headD (0, 0)).1)⁻¹
        exact ⟨hiv.1, by unfold OnDemandAllocator.set_allocated
                         dsimp only
                         rw [hiv.2, hr.1.2.1], hr.1.2.2⟩
  · rw [if_neg hb, if_neg (fun hx => hb (hcond.mp hx))]
    have hrc := reduce_coefs_wiring ((if k = 1 then ((reduce_coefs s lhs).1.1,
        (reduce_coefs s lhs).2)
        else (reduce_coefs s lhs).1.1.mul_by_constant (reduce_coefs s lhs).2 k).1,
        (reduce_coefs s lhs).1.2)
      ((if k = 1 then ((reduce_coefs t lhs).1.1, (reduce_coefs t lhs).2)
        else (reduce_coefs t lhs).1.1.mul_by_constant (reduce_coefs t lhs).2 k).1,
        (reduce_coefs t lhs).1.2)
      ⟨hmv.1, hr.1.2.1, hr.1.2.2⟩ cc
    have hnv := neg_wiring _ _ hrc.1.1 _ _ hrc.2
    have hav := add_wiring _ _ hnv.1 _ _ hmv.2 _ _ hnv.2
    exact ⟨zero_test_wiring _ _ hav.1 _ _ hav.2, hrc.1.2.1, hrc.1.2.2⟩

/-- `process_r1cs_equal_constraint` acts identically on the wiring. -/

theorem process_equal_wiring (s t : PState) (h : WEq s t)
    (a_or_b : LinComb) (k : F) (cc : LinComb) :
    OWEq (process_r1cs_equal_constraint s a_or_b k cc)
      (process_r1cs_equal_constraint t a_or_b k cc) := by
  unfold process_r1cs_equal_constraint
  have e1 : t.2.is_allocated (cc.headD (0, 0)).2 = s.2.is_allocated (cc.headD (0, 0)).2 :=
    is_allocated_congr _ _ h.2.1.symm _
  have e2 : t.2.is_allocated (a_or_b.headD (0, 0)).2
      = s.2.is_allocated (a_or_b.headD (0, 0)).2 :=
    is_allocated_congr _ _ h.2.1.symm _
  rw [e1, e2]
  by_cases h1 : cc.length = 1 ∧ ¬ s.2.is_allocated (cc.headD (0, 0)).2
  · rw [if_pos h1, if_pos h1]
    exact process_equal_after_swap_wiring s t h a_or_b k cc
  · rw [if_neg h1, if_neg h1]
    by_cases h2 : a_or_b.length = 1 ∧ ¬ s.2.is_allocated (a_or_b.headD (0, 0)).2
    · rw [if_pos h2, if_pos h2]
      by_cases hk : k = 0
      · rw [if_pos hk, if_pos hk]
        trivial
      · rw [if_neg hk, if_neg hk]
        exact process_equal_after_swap_wiring s t h cc k⁻¹ a_or_b
    · rw [if_neg h2, if_neg h2]
      exact process_equal_after_swap_wiring s t h a_or_b k cc

/-- `process_r1cs_multiplication_constraint` acts identically on the
wiring. -/

theorem process_mult_wiring (s t : PState) (h : WEq s t) (a b cc : LinComb) :
    OWEq (process_r1cs_multiplication_constraint s a b cc)
      (process_r1cs_multiplication_constraint t a b cc) := by
  unfold process_r1cs_multiplication_constraint
  dsimp only
  have hra := reduce_coefs_wiring s t h a
  have hrb := reduce_coefs_wiring (reduce_coefs s a).1 (reduce_coefs t a).1 hra.1 b
  have hcond : (cc.length = 1
        ∧ ¬ (reduce_coefs (reduce_coefs t a).1 b).1.2.is_allocated (cc.headD (0, 0)).2)
      ↔ (cc.length = 1
        ∧ ¬ (reduce_coefs (reduce_coefs s a).1 b).1.2.is_allocated (cc.headD (0, 0)).2) := by
    rw [is_allocated_congr _ _ hrb.1.2.1]
  by_cases hb : cc.length = 1
      ∧ ¬ (reduce_coefs (reduce_coefs s a).1 b).1.2.is_allocated (cc.headD (0, 0)).2
  · rw [if_pos hb, if_pos (hcond.mpr hb)]
    have hmv := mul_wiring _ _ hrb.1.1 _ _ hra.2 _ _ hrb.2
    by_cases hc1 : (cc.headD (0, 0)).1 = 1
    · rw [if_pos hc1, if_pos hc1]
      exact ⟨hmv.1, by unfold OnDemandAllocator.set_allocated
                       dsimp only
                       rw [hmv.2, hrb.1.2.1], hrb.1.2.2⟩
    · rw [if_neg hc1, if_neg hc1]
      by_cases hc0 : (cc.headD (0, 0)).1 = 0
      · rw [if_pos hc0, if_pos hc0]
        trivial
      · rw [if_neg hc0, if_neg hc0]
        have hiv := mul_by_constant_wiring _ _ hmv.1 _ _ hmv.2 ((cc.headD (0, 0)).1)⁻¹
        exact ⟨hiv.1, by unfold OnDemandAllocator.set_allocated
                         dsimp only
                         rw [hiv.2, hrb.1.2.1], hrb.1.2.2⟩
  · rw [if_neg hb, if_neg (fun hx => hb (hcond.mp hx))]
    have hrc := reduce_coefs_wiring (reduce_coefs (reduce_coefs s a).1 b).1
      (reduce_coefs (reduce_coefs t a).1 b).1 hrb.1 cc
    have hmv := mul_wiring _ _ hrc.1.1 _ _ hra.2 _ _ hrb.2
    have hnv := neg_wiring _ _ hmv.1 _ _ hrc.2
    have hav := add_wiring _ _ hnv.1 _ _ hmv.2 _ _ hnv.2
    exact ⟨zero_test_wiring _ _ hav.1 _ _ hav.2, hrc.1.2.1, hrc.1.2.2⟩

/-- The per-constraint dispatch acts identically on the wiring. -/

theorem process_constraint_wiring (s t : PState) (h : WEq s t)
    (t3 : LinComb × LinComb × LinComb) :
    OWEq (process_constraint s t3) (process_constraint t t3) := by
  unfold process_constraint
  by_cases h1 : get_linear_combination_type t3.1 = LinearCombinationType.NULLABLE
      ∨ get_linear_combination_type t3.2.1 = LinearCombinationType.NULLABLE
  · rw [if_pos h1, if_pos h1]
    exact process_addition_wiring s t h _
  · rw [if_neg h1, if_neg h1]
    cases hA : get_linear_combination_type t3.1 <;>
      cases hB : get_linear_combination_type t3.2.1 <;>
      first
        | exact process_equal_wiring s t h _ _ _
        | exact process_mult_wiring s t h _ _ _

/-- The constraint-processing fold acts identically on the wiring. -/

theorem foldlM_wiring (l : List (LinComb × LinComb × LinComb)) (s t : PState)
    (h : WEq s t) :
    OWEq (l.foldlM process_constraint s) (l.foldlM process_constraint t) := by
  induction l generalizing s t with
  | nil => exact h
  | cons e r ih =>
    have hpc := process_constraint_wiring s t h e
    simp only [List.foldlM_cons]
    cases hs : process_constraint s e with
    | none =>
      cases ht : process_constraint t e with
      | none => trivial
      | some t' =>
        rw [hs, ht] at hpc
        exact absurd hpc (by simp [OWEq])
    | some s' =>
      cases ht : process_constraint t e with
      | none =>
        rw [hs, ht] at hpc
        exact absurd hpc (by simp [OWEq])
      | some t' =>
        rw [hs, ht] at hpc
        simpa using ih s' t' hpc

/-- The instance-allocation loop produces wiring-equivalent states for any
two assignment vectors. -/

theorem initial_state_wiring (n : Nat) (x y : List F) :
    WEq (initial_state n x) (initial_state n y) := by
  unfold initial_state
  have main : ∀ (l : List Nat) (s t : PState), WEq s t →
      WEq (l.foldl (fun s i => (allocator_get s i).1) s)
        (l.foldl (fun s i => (allocator_get s i).1) t) := by
    intro l
    induction l with
    | nil => exact fun _ _ h => h
    | cons j r ih =>
      intro s t h
      exact ih _ _ (allocator_get_wiring s t h j).1
  exact main _ _ _ ⟨⟨rfl, rfl, rfl, rfl, rfl, rfl⟩, rfl, rfl⟩

/-- C5: `generate_circuit`'s wiring (`num_rows`, `op`, `idx_a`, `idx_b`,
`mult`) does not depend on the assignment vector: INDEX mode (all-zero
assignments) and PROVE mode agree, and more generally any two assignment
vectors give the same wiring (including agreement on panic/no-panic). -/

theorem generate_circuit_mode_independence (num_variables num_input : Nat)
    (x : List F) (m : R1CSMatrices) :
    Option.map wiring (generate_circuit Mode.INDEX num_variables num_input x m)
      = Option.map wiring (generate_circuit Mode.PROVE num_variables num_input x m)
    ∧ ∀ y : List F,
      Option.map wiring (generate_circuit_core num_input x m)
        = Option.map wiring (generate_circuit_core num_input y m) := by
  have core : ∀ (u v : List F),
      Option.map wiring (generate_circuit_core num_input u m)
        = Option.map wiring (generate_circuit_core num_input v m) := by
    intro u v
    unfold generate_circuit_core
    have h := foldlM_wiring m.triples (initial_state num_input u)
      (initial_state num_input v) (initial_state_wiring num_input u v)
    cases hu : m.triples.foldlM process_constraint (initial_state num_input u) with
    | none =>
      cases hv : m.triples.foldlM process_constraint (initial_state num_input v) with
      | none => rfl
      | some t' =>
        rw [hu, hv] at h
        exact absurd h (by simp [OWEq])
    | some s' =>
      cases hv : m.triples.foldlM process_constraint (initial_state num_input v) with
      | none =>
        rw [hu, hv] at h
        exact absurd h (by simp [OWEq])
      | some t' =>
        rw [hu, hv] at h
        obtain ⟨⟨e1, e2, e3, e4, e5, _⟩, _, _⟩ := h
        show some (wiring s'.1) = some (wiring t'.1)
        unfold wiring
        rw [e1, e2, e3, e4, e5]
  exact ⟨core _ _, fun y => core x y⟩

/-! ## C7 — sorting before emission -/

/-- C7 counterexample: the constraint processor passes `b` and `c` to the
equality processor *unsorted* (no `sort_linear_combinations` in the two
CONSTANT branches of `generate_circuit`), so on `unsorted_instance` it
allocates variable 2 before variable 1: row 2 carries value 7 (= x₂),
while the spec's fully-sorting dispatch puts 5 (= x₁) there — the two
dispatches produce different circuits. -/

theorem equal_branch_unsorted_counterexample :
    (generate_circuit_core 1 [1, 5, 7] unsorted_instance).map
        (fun c => c.output_wires.getD 2 0) = some 7
    ∧ (generate_circuit_sorted 1 [1, 5, 7] unsorted_instance).map
        (fun c => c.output_wires.getD 2 0) = some 5
    ∧ generate_circuit_core 1 [1, 5, 7] unsorted_instance
        ≠ generate_circuit_sorted 1 [1, 5, 7] unsorted_instance := by
  have h1 : (generate_circuit_core 1 [1, 5, 7] unsorted_instance).map
      (fun c => c.output_wires.getD 2 0) = some 7 := by decide
  have h2 : (generate_circuit_sorted 1 [1, 5, 7] unsorted_instance).map
      (fun c => c.output_wires.getD 2 0) = some 5 := by decide
  refine ⟨h1, h2, fun he => ?_⟩
  rw [he, h2] at h1
  exact absurd h1 (by decide)

/-- On a `constant_branch_sorted` triple the actual dispatch agrees with the
fully-sorting one. -/

theorem process_constraint_sorted_eq (s : PState) (t3 : LinComb × LinComb × LinComb)
    (h : constant_branch_sorted t3) :
    process_constraint_all_sorted s t3 = process_constraint s t3 := by
  unfold process_constraint process_constraint_all_sorted
  unfold constant_branch_sorted at h
  dsimp only
  by_cases h1 : get_linear_combination_type t3.1 = LinearCombinationType.NULLABLE
      ∨ get_linear_combination_type t3.2.1 = LinearCombinationType.NULLABLE
  · rw [if_pos h1, if_pos h1]
  · rw [if_neg h1] at h
    rw [if_neg h1, if_neg h1]
    rcases hA : get_linear_combination_type t3.1 with _ | ka | _ <;>
      rcases hB : get_linear_combination_type t3.2.1 with _ | kb | _ <;>
      rw [hA, hB] at h <;>
      dsimp only [is_constant_lct] at h <;>
      dsimp only <;>
      first
        | exact absurd (Or.inl hA) h1
        | exact absurd (Or.inr hB) h1
        | (rw [if_neg (by decide), if_pos (by decide)] at h
           rw [h.1, h.2])
        | (rw [if_pos (by decide)] at h
           rw [h.1, h.2])
        | rfl

/-- C7 (amended): the NULLABLE branch sorts the `c` combination and the
VARIABLE×VARIABLE branch sorts all three, but the two CONSTANT branches
pass their combinations to `process_r1cs_equal_constraint` unsorted; the
actual processor therefore agrees with the spec's fully-sorting dispatch
exactly on instances whose CONSTANT-branch combinations are already sorted.
`sort_linear_combinations` itself does sort by ascending variable index. -/

theorem generate_circuit_sorting (num_input : Nat) (x : List F) (m : R1CSMatrices)
    (h : ∀ t3 ∈ m.triples, constant_branch_sorted t3) :
    generate_circuit_core num_input x m = generate_circuit_sorted num_input x m
    ∧ ∀ l : LinComb,
        List.Sorted (fun u v : F × Nat => u.2 ≤ v.2) (sort_linear_combinations l) := by
  constructor
  · unfold generate_circuit_core generate_circuit_sorted
    have main : ∀ (l : List (LinComb × LinComb × LinComb)) (s : PState),
        (∀ t3 ∈ l, constant_branch_sorted t3) →
        l.foldlM process_constraint s = l.foldlM process_constraint_all_sorted s := by
      intro l
      induction l with
      | nil =>
        intro s _
        have h1 : (([] : List (LinComb × LinComb × LinComb)).foldlM
            process_constraint s : Option PState) = pure s := rfl
        have h2 : (([] : List (LinComb × LinComb × LinComb)).foldlM
            process_constraint_all_sorted s : Option PState) = pure s := rfl
        rw [h1, h2]
      | cons e r ih =>
        intro s hl
        rw [List.foldlM_cons, List.foldlM_cons,
          process_constraint_sorted_eq s e (hl e (List.mem_cons_self e r))]
        cases hpc : process_constraint s e with
        | none =>
          have h3 : ((none : Option PState) >>= fun u =>
              r.foldlM process_constraint u) = none := rfl
          have h4 : ((none : Option PState) >>= fun u =>
              r.foldlM process_constraint_all_sorted u) = none := rfl
          rw [h3, h4]
        | some s2 =>
          have h3 : ((some s2 : Option PState) >>= fun u =>
              r.foldlM process_constraint u) = r.foldlM process_constraint s2 := rfl
          have h4 : ((some s2 : Option PState) >>= fun u =>
              r.foldlM process_constraint_all_sorted u)
              = r.foldlM process_constraint_all_sorted s2 := rfl
          rw [h3, h4]
          exact ih s2 (fun t3 ht => hl t3 (List.mem_cons_of_mem e ht))
    rw [main m.triples _ h]
  · intro l
    unfold sort_linear_combinations
    have htot : IsTotal (F × Nat) (fun u v : F × Nat => u.2 ≤ v.2) :=
      ⟨fun a b => Nat.le_total a.2 b.2⟩
    have htrans : IsTrans (F × Nat) (fun u v : F × Nat => u.2 ≤ v.2) :=
      ⟨fun _ _ _ hab hbc => Nat.le_trans hab hbc⟩
    exact @List.sorted_insertionSort _ _ _ htot htrans l

/-- C7 witness: the amended equivalence on the sorted variant of the
counterexample instance. -/

theorem generate_circuit_sorting_witness :
    (∀ t3 ∈ (⟨[[((2 : F), 0)]], [[((1 : F), 1), ((1 : F), 2)]], [[]]⟩ :
        R1CSMatrices).triples, constant_branch_sorted t3)
    ∧ generate_circuit_core 1 [1, 5, 7]
        ⟨[[((2 : F), 0)]], [[((1 : F), 1), ((1 : F), 2)]], [[]]⟩
      = generate_circuit_sorted 1 [1, 5, 7]
        ⟨[[((2 : F), 0)]], [[((1 : F), 1), ((1 : F), 2)]], [[]]⟩ :=
  ⟨by decide,
    (generate_circuit_sorting 1 [1, 5, 7]
      ⟨[[((2 : F), 0)]], [[((1 : F), 1), ((1 : F), 2)]], [[]]⟩ (by decide)).1⟩

/-! ## C1 — local soundness of the lowering -/

theorem OutExt.rfl (c : Circuit) : OutExt c c :=
  ⟨Nat.le_refl _, fun _ _ => Eq.refl _⟩

theorem OutExt.trans {a b c : Circuit} (h1 : OutExt a b) (h2 : OutExt b c) : OutExt a c :=
  ⟨Nat.le_trans h1.1 h2.1, fun j hj => (h2.2 j (Nat.lt_of_lt_of_le hj h1.1)).trans (h1.2 j hj)⟩

/-- `lookup` finds an element of the list. -/

theorem lookup_mem {α : Type} [DecidableEq α] {β : Type} (l : List (α × β)) (k : α) (v : β)
    (h : l.lookup k = some v) : (k, v) ∈ l := by
  induction l with
  | nil => exact absurd h (by simp [List.lookup])
  | cons e r ih =>
    rw [List.lookup] at h
    by_cases he : k = e.1
    · rw [show (k == e.1) = true from by simpa using he] at h
      cases h
      subst he
      exact List.mem_cons_self _ _
    · rw [show (k == e.1) = false from by simpa using he] at h
      exact List.mem_cons_of_mem _ (ih h)

/-- `dotLC` as a mapped sum. -/

theorem dotLC_eq_sum (x : List F) (l : LinComb) :
    dotLC x l = (l.map (fun t => t.1 * x.getD t.2 0)).sum := by
  induction l with
  | nil => rfl
  | cons t r ih => rw [dotLC, ih, List.map_cons, List.sum_cons]

/-- `dotLC` is invariant under permutation. -/

theorem dotLC_perm (x : List F) {l l' : LinComb} (h : l.Perm l') :
    dotLC x l = dotLC x l' := by
  rw [dotLC_eq_sum, dotLC_eq_sum]
  exact (h.map _).sum_eq

/-- `ksum` as a mapped sum. -/

theorem ksum_eq_sum (l : LinComb) :
    ksum l = (l.map (fun t => if t.2 = 0 then t.1 else 0)).sum := by
  induction l with
  | nil => rfl
  | cons t r ih => rw [ksum, ih, List.map_cons, List.sum_cons]

/-- `ksum` is invariant under permutation. -/

theorem ksum_perm {l l' : LinComb} (h : l.Perm l') : ksum l = ksum l' := by
  rw [ksum_eq_sum, ksum_eq_sum]
  exact (h.map _).sum_eq

/-- `csOf` of a permutation is empty iff the original's is. -/

theorem csOf_perm_nil {l l' : LinComb} (h : l.Perm l') :
    (csOf l = [] ↔ csOf l' = []) := by
  unfold csOf
  rw [List.map_eq_nil, List.map_eq_nil]
  have hp := h.filter (fun t : F × Nat => decide (t.2 ≠ 0 ∧ t.1 ≠ 0))
  constructor <;> intro hn
  · rw [hn] at hp
    exact hp.symm.eq_nil
  · rw [hn] at hp
    exact hp.eq_nil

/-- Decomposition of a linear combination's value: constant part times `x₀`
plus the value of its non-zero non-constant terms. -/

theorem dot_decomp (x : List F) (lc : LinComb) :
    dotLC x lc = ksum lc * x.getD 0 0 + csSum x (csOf lc) := by
  induction lc with
  | nil =>
    show (0 : F) = 0 * x.getD 0 0 + csSum x (csOf [])
    rw [csOf]
    show (0 : F) = 0 * x.getD 0 0 + 0
    ring
  | cons t r ih =>
    rw [dotLC, ksum, ih]
    unfold csOf
    rw [List.filter_cons]
    by_cases h2 : t.2 = 0
    · rw [if_neg (show ¬(decide (t.2 ≠ 0 ∧ t.1 ≠ 0) = true) from by simp [h2]),
        if_pos h2, h2]
      ring
    · by_cases h1 : t.1 = 0
      · rw [if_neg (show ¬(decide (t.2 ≠ 0 ∧ t.1 ≠ 0) = true) from by simp [h1]),
          if_neg h2, h1]
        ring
      · rw [if_pos (show decide (t.2 ≠ 0 ∧ t.1 ≠ 0) = true from by simp [h1, h2]),
          if_neg h2, List.map_cons, csSum]
        dsimp only
        ring

/-- If a combination has no non-constant term, its `csOf` is empty. -/

theorem csOf_eq_nil_of_nonconst_zero (lc : LinComb) (h : nonconstCount lc = 0) :
    csOf lc = [] := by
  unfold nonconstCount at h
  rw [List.length_eq_zero, List.filter_eq_nil_iff] at h
  unfold csOf
  rw [List.map_eq_nil, List.filter_eq_nil_iff]
  intro t ht hcond
  have h2 : ¬ t.2 = 0 := by
    have := of_decide_eq_true hcond
    exact this.1
  exact absurd (by simpa using h2) (by simpa using h t ht)

/-- If a combination has no non-constant term, its value is `ksum · x₀`. -/

theorem dot_of_nonconst_zero (x : List F) (lc : LinComb) (h : nonconstCount lc = 0) :
    dotLC x lc = ksum lc * x.getD 0 0 := by
  rw [dot_decomp, csOf_eq_nil_of_nonconst_zero lc h, csSum]
  ring

/-- What a NULLABLE classification means. -/

theorem lct_nullable_spec (lc : LinComb)
    (h : get_linear_combination_type lc = LinearCombinationType.NULLABLE) :
    nonconstCount lc = 0 ∧ ksum lc = 0 := by
  unfold get_linear_combination_type at h
  split at h
  · exact absurd h (by simp)
  · split at h
    · exact absurd h (by simp)
    · refine ⟨by omega, by simp_all⟩

/-- What a CONSTANT classification means. -/

theorem lct_constant_spec (lc : LinComb) (k : F)
    (h : get_linear_combination_type lc = LinearCombinationType.CONSTANT k) :
    nonconstCount lc = 0 ∧ ksum lc = k ∧ k ≠ 0 := by
  unfold get_linear_combination_type at h
  split at h
  · exact absurd h (by simp)
  · split at h
    · rename_i hk
      cases h
      exact ⟨by omega, rfl, hk⟩
    · exact absurd h (by simp)

/-- Appending a row does not change the check of an existing in-range row. -/

theorem row_check_append (c c' : Circuit) (v o : F) (a b : Nat)
    (hwf : c.well_formed)
    (hno : c'.output_wires = c.output_wires ++ [v]) (hop : c'.op = c.op ++ [o])
    (hia : c'.idx_a = c.idx_a ++ [a]) (hib : c'.idx_b = c.idx_b ++ [b])
    (j : Nat) (hj : j < c.num_rows)
    (hja : c.idx_a.getD j 0 < c.num_rows) (hjb : c.idx_b.getD j 0 < c.num_rows) :
    c'.row_check j = c.row_check j := by
  obtain ⟨hlo, hlop, hla, hlb, hlm⟩ := hwf
  unfold Circuit.row_check Circuit.get_output_wire
  rw [hno, hop, hia, hib]
  have h1 : (c.idx_a ++ [a]).getD j 0 = c.idx_a.getD j 0 :=
    List.getD_append _ _ _ _ (by omega)
  have h2 : (c.idx_b ++ [b]).getD j 0 = c.idx_b.getD j 0 :=
    List.getD_append _ _ _ _ (by omega)
  have h3 : (c.output_wires ++ [v]).getD (c.idx_a.getD j 0) 0
      = c.output_wires.getD (c.idx_a.getD j 0) 0 := List.getD_append _ _ _ _ (by omega)
  have h4 : (c.output_wires ++ [v]).getD (c.idx_b.getD j 0) 0
      = c.output_wires.getD (c.idx_b.getD j 0) 0 := List.getD_append _ _ _ _ (by omega)
  have h5 : (c.output_wires ++ [v]).getD j 0 = c.output_wires.getD j 0 :=
    List.getD_append _ _ _ _ (by omega)
  have h6 : (c.op ++ [o]).getD j 0 = c.op.getD j 0 :=
    List.getD_append _ _ _ _ (by omega)
  rw [h1, h2, h3, h4, h5, h6]

/-- `new_row` preserves the circuit invariant; the new row's output is the
row formula applied to the outputs of `a` and `b`. -/

theorem new_row_sound (c : Circuit) (opv : F) (a b : Nat) (hI : CInv c)
    (ha : a < c.num_rows) (hb : b < c.num_rows) :
    CInv (c.new_row opv a b).1 ∧ OutExt c (c.new_row opv a b).1
    ∧ (c.new_row opv a b).2 = c.num_rows
    ∧ (c.new_row opv a b).1.num_rows = c.num_rows + 1
    ∧ (c.new_row opv a b).1.output_wires.getD c.num_rows 0
      = opv * (c.output_wires.getD a 0 + c.output_wires.getD b 0)
        + (1 - opv) * c.output_wires.getD a 0 * c.output_wires.getD b 0
    ∧ (c.new_row opv a b).1.constant_maps = c.constant_maps := by
  obtain ⟨hlo, hlop, hla, hlb, hlm⟩ := hI.wf
  have hno : (c.new_row opv a b).1.output_wires = c.output_wires
      ++ [opv * (c.output_wires.getD a 0 + c.output_wires.getD b 0)
        + (1 - opv) * c.output_wires.getD a 0 * c.output_wires.getD b 0] := rfl
  have hop : (c.new_row opv a b).1.op = c.op ++ [opv] := rfl
  have hiaa : (c.new_row opv a b).1.idx_a = c.idx_a ++ [a] := rfl
  have hibb : (c.new_row opv a b).1.idx_b = c.idx_b ++ [b] := rfl
  have hn : (c.new_row opv a b).1.num_rows = c.num_rows + 1 := rfl
  have hcm : (c.new_row opv a b).1.constant_maps = c.constant_maps := rfl
  have hval : (c.new_row opv a b).1.output_wires.getD c.num_rows 0
      = opv * (c.output_wires.getD a 0 + c.output_wires.getD b 0)
        + (1 - opv) * c.output_wires.getD a 0 * c.output_wires.getD b 0 := by
    rw [hno, List.getD_append_right _ _ _ _ (by omega), hlo, Nat.sub_self,
      List.getD_cons_zero]
  have hext : OutExt c (c.new_row opv a b).1 := by
    refine ⟨by omega, fun j hj => ?_⟩
    rw [hno]
    exact List.getD_append _ _ _ _ (by omega)
  have hml : (c.new_row opv a b).1.mult.length = c.mult.length + 1 := by
    show (((c.mult ++ [0]).set a _).set b _).length = c.mult.length + 1
    rw [List.length_set, List.length_set, List.length_append, List.length_singleton]
  have htwo : 2 ≤ c.num_rows := hI.two
  refine ⟨⟨⟨?_, ?_, ?_, ?_, ?_⟩, by omega, ?_, ?_, ?_, ?_, ?_⟩, hext, rfl, hn, hval, hcm⟩
  · rw [hno, hn, List.length_append, List.length_singleton, hlo]
  · rw [hop, hn, List.length_append, List.length_singleton, hlop]
  · rw [hiaa, hn, List.length_append, List.length_singleton, hla]
  · rw [hibb, hn, List.length_append, List.length_singleton, hlb]
  · rw [hml, hn, hlm]
  · rw [hext.2 0 (by omega)]
    exact hI.out0
  · rw [hext.2 1 (by omega)]
    exact hI.out1
  · intro j hj
    rw [hn] at hj
    rw [hiaa, hibb, hn]
    rcases Nat.lt_or_ge j c.num_rows with hlt | hge
    · have e1 : (c.idx_a ++ [a]).getD j 0 = c.idx_a.getD j 0 :=
        List.getD_append _ _ _ _ (by omega)
      have e2 : (c.idx_b ++ [b]).getD j 0 = c.idx_b.getD j 0 :=
        List.getD_append _ _ _ _ (by omega)
      rw [e1, e2]
      have := hI.idx_lt j hlt
      omega
    · have hjn : j = c.num_rows := by omega
      subst hjn
      have e1 : (c.idx_a ++ [a]).getD c.num_rows 0 = a := by
        rw [List.getD_append_right _ _ _ _ (by omega), hla, Nat.sub_self,
          List.getD_cons_zero]
      have e2 : (c.idx_b ++ [b]).getD c.num_rows 0 = b := by
        rw [List.getD_append_right _ _ _ _ (by omega), hlb, Nat.sub_self,
          List.getD_cons_zero]
      rw [e1, e2]
      omega
  · intro j hj
    rw [hn] at hj
    rcases Nat.lt_or_ge j c.num_rows with hlt | hge
    · rw [row_check_append c (c.new_row opv a b).1 _ opv a b hI.wf hno hop hiaa hibb j hlt
        (hI.idx_lt j hlt).1 (hI.idx_lt j hlt).2]
      exact hI.rows_ok j hlt
    · have hjn : j = c.num_rows := by omega
      subst hjn
      unfold Circuit.row_check Circuit.get_output_wire
      have e1 : (c.new_row opv a b).1.idx_a.getD c.num_rows 0 = a := by
        rw [hiaa, List.getD_append_right _ _ _ _ (by omega), hla, Nat.sub_self,
          List.getD_cons_zero]
      have e2 : (c.new_row opv a b).1.idx_b.getD c.num_rows 0 = b := by
        rw [hibb, List.getD_append_right _ _ _ _ (by omega), hlb, Nat.sub_self,
          List.getD_cons_zero]
      have e3 : (c.new_row opv a b).1.op.getD c.num_rows 0 = opv := by
        rw [hop, List.getD_append_right _ _ _ _ (by omega), hlop, Nat.sub_self,
          List.getD_cons_zero]
      have e4 : (c.new_row opv a b).1.output_wires.getD a 0 = c.output_wires.getD a 0 :=
        hext.2 a (by omega)
      have e5 : (c.new_row opv a b).1.output_wires.getD b 0 = c.output_wires.getD b 0 :=
        hext.2 b (by omega)
      rw [e1, e2, e3, e4, e5, hval, decide_eq_true_iff]
      ring
  · intro e he
    rw [hcm] at he
    have h := hI.const_ok e he
    refine ⟨by omega, ?_⟩
    rw [hext.2 e.2 h.1]
    exact h.2

/-- `add` soundness: the new row's output is the sum. -/

theorem add_sound (c : Circuit) (a b : Nat) (hI : CInv c)
    (ha : a < c.num_rows) (hb : b < c.num_rows) :
    CInv (c.add a b).1 ∧ OutExt c (c.add a b).1 ∧ (c.add a b).2 = c.num_rows
    ∧ (c.add a b).1.num_rows = c.num_rows + 1
    ∧ (c.add a b).1.output_wires.getD c.num_rows 0
      = c.output_wires.getD a 0 + c.output_wires.getD b 0 := by
  unfold Circuit.add
  have h := new_row_sound c 1 a b hI ha hb
  refine ⟨h.1, h.2.1, h.2.2.1, h.2.2.2.1, ?_⟩
  rw [h.2.2.2.2.1]
  ring

/-- `mul` soundness: the new row's output is the product. -/

theorem mul_sound (c : Circuit) (a b : Nat) (hI : CInv c)
    (ha : a < c.num_rows) (hb : b < c.num_rows) :
    CInv (c.mul a b).1 ∧ OutExt c (c.mul a b).1 ∧ (c.mul a b).2 = c.num_rows
    ∧ (c.mul a b).1.num_rows = c.num_rows + 1
    ∧ (c.mul a b).1.output_wires.getD c.num_rows 0
      = c.output_wires.getD a 0 * c.output_wires.getD b 0 := by
  unfold Circuit.mul
  have h := new_row_sound c 0 a b hI ha hb
  refine ⟨h.1, h.2.1, h.2.2.1, h.2.2.2.1, ?_⟩
  rw [h.2.2.2.2.1]
  ring

/-- `mul_by_constant` soundness: output `k` times the input (uses row 0
holding 0). -/

theorem mul_by_constant_sound (c : Circuit) (a : Nat) (k : F) (hI : CInv c)
    (ha : a < c.num_rows) :
    CInv (c.mul_by_constant a k).1 ∧ OutExt c (c.mul_by_constant a k).1
    ∧ (c.mul_by_constant a k).2 = c.num_rows
    ∧ (c.mul_by_constant a k).1.num_rows = c.num_rows + 1
    ∧ (c.mul_by_constant a k).1.output_wires.getD c.num_rows 0
      = k * c.output_wires.getD a 0 := by
  unfold Circuit.mul_by_constant
  have h := new_row_sound c k a 0 hI ha (by have := hI.two; omega)
  refine ⟨h.1, h.2.1, h.2.2.1, h.2.2.2.1, ?_⟩
  rw [h.2.2.2.2.1, hI.out0]
  ring

/-- `neg` soundness: output is the negation. -/

theorem neg_sound (c : Circuit) (a : Nat) (hI : CInv c) (ha : a < c.num_rows) :
    CInv (c.neg a).1 ∧ OutExt c (c.neg a).1 ∧ (c.neg a).2 = c.num_rows
    ∧ (c.neg a).1.num_rows = c.num_rows + 1
    ∧ (c.neg a).1.output_wires.getD c.num_rows 0 = - c.output_wires.getD a 0 := by
  unfold Circuit.neg
  have h := mul_by_constant_sound c a (-1) hI ha
  refine ⟨h.1, h.2.1, h.2.2.1, h.2.2.2.1, ?_⟩
  rw [h.2.2.2.2]
  ring

/-- `new_constant` soundness: returns a row holding `k` (uses rows 0 and 1
holding 0 and 1). -/

theorem new_constant_sound (c : Circuit) (k : F) (hI : CInv c) :
    CInv (c.new_constant k).1 ∧ OutExt c (c.new_constant k).1
    ∧ (c.new_constant k).2 < (c.new_constant k).1.num_rows
    ∧ (c.new_constant k).1.output_wires.getD (c.new_constant k).2 0 = k := by
  unfold Circuit.new_constant
  cases hl : c.constant_maps.lookup k with
  | some idx =>
    have hm := hI.const_ok _ (lookup_mem _ _ _ hl)
    exact ⟨hI, OutExt.rfl c, hm.1, hm.2⟩
  | none =>
    have htwo := hI.two
    have h := new_row_sound c k 1 0 hI (by omega) (by omega)
    have hvk : (c.new_row k 1 0).1.output_wires.getD c.num_rows 0 = k := by
      rw [h.2.2.2.2.1, hI.out0, hI.out1]
      ring
    refine ⟨⟨h.1.wf, h.1.two, h.1.out0, h.1.out1, h.1.idx_lt, h.1.rows_ok, ?_⟩,
      h.2.1, ?_, ?_⟩
    · intro e he
      rcases List.mem_cons.mp he with he0 | he1
      · subst he0
        refine ⟨by rw [h.2.2.2.1]; omega, ?_⟩
        show (c.new_row k 1 0).1.output_wires.getD (c.new_row k 1 0).2 0 = k
        rw [h.2.2.1]
        exact hvk
      · exact h.1.const_ok e he1
    · show (c.new_row k 1 0).2 < (c.new_row k 1 0).1.num_rows
      rw [h.2.2.1, h.2.2.2.1]
      omega
    · show (c.new_row k 1 0).1.output_wires.getD (c.new_row k 1 0).2 0 = k
      rw [h.2.2.1]
      exact hvk

/-- `new_input` soundness: the appended self-referential row holds `v` and
passes its check (row 0 holds 0). -/

theorem new_input_sound (c : Circuit) (v : F) (hI : CInv c) :
    CInv (c.new_input v).1 ∧ OutExt c (c.new_input v).1
    ∧ (c.new_input v).2 = c.num_rows
    ∧ (c.new_input v).1.num_rows = c.num_rows + 1
    ∧ (c.new_input v).1.output_wires.getD c.num_rows 0 = v := by
  obtain ⟨hlo, hlop, hla, hlb, hlm⟩ := hI.wf
  have htwo := hI.two
  have hno : (c.new_input v).1.output_wires = c.output_wires ++ [v] := rfl
  have hop : (c.new_input v).1.op = c.op ++ [1] := rfl
  have hiaa : (c.new_input v).1.idx_a = c.idx_a ++ [c.num_rows] := rfl
  have hibb : (c.new_input v).1.idx_b = c.idx_b ++ [0] := rfl
  have hn : (c.new_input v).1.num_rows = c.num_rows + 1 := rfl
  have hcm : (c.new_input v).1.constant_maps = c.constant_maps := rfl
  have hval : (c.new_input v).1.output_wires.getD c.num_rows 0 = v := by
    rw [hno, List.getD_append_right _ _ _ _ (by omega), hlo, Nat.sub_self,
      List.getD_cons_zero]
  have hext : OutExt c (c.new_input v).1 := by
    refine ⟨by omega, fun j hj => ?_⟩
    rw [hno]
    exact List.getD_append _ _ _ _ (by omega)
  have hml : (c.new_input v).1.mult.length = c.mult.length + 1 := by
    show ((c.mult ++ [0]).set 0 _).length = c.mult.length + 1
    rw [List.length_set, List.length_append, List.length_singleton]
  refine ⟨⟨⟨?_, ?_, ?_, ?_, ?_⟩, by omega, ?_, ?_, ?_, ?_, ?_⟩, hext, rfl, hn, hval⟩
  · rw [hno, hn, List.length_append, List.length_singleton, hlo]
  · rw [hop, hn, List.length_append, List.length_singleton, hlop]
  · rw [hiaa, hn, List.length_append, List.length_singleton, hla]
  · rw [hibb, hn, List.length_append, List.length_singleton, hlb]
  · rw [hml, hn, hlm]
  · rw [hext.2 0 (by omega)]
    exact hI.out0
  · rw [hext.2 1 (by omega)]
    exact hI.out1
  · intro j hj
    rw [hn] at hj
    rw [hiaa, hibb, hn]
    rcases Nat.lt_or_ge j c.num_rows with hlt | hge
    · have e1 : (c.idx_a ++ [c.num_rows]).getD j 0 = c.idx_a.getD j 0 :=
        List.getD_append _ _ _ _ (by omega)
      have e2 : (c.idx_b ++ [0]).getD j 0 = c.idx_b.getD j 0 :=
        List.getD_append _ _ _ _ (by omega)
      rw [e1, e2]
      have := hI.idx_lt j hlt
      omega
    · have hjn : j = c.num_rows := by omega
      subst hjn
      have e1 : (c.idx_a ++ [c.num_rows]).getD c.num_rows 0 = c.num_rows := by
        rw [List.getD_append_right _ _ _ _ (by omega), hla, Nat.sub_self,
          List.getD_cons_zero]
      have e2 : (c.idx_b ++ [0]).getD c.num_rows 0 = 0 := by
        rw [List.getD_append_right _ _ _ _ (by omega), hlb, Nat.sub_self,
          List.getD_cons_zero]
      rw [e1, e2]
      omega
  · intro j hj
    rw [hn] at hj
    rcases Nat.lt_or_ge j c.num_rows with hlt | hge
    · rw [row_check_append c (c.new_input v).1 v 1 c.num_rows 0
        ⟨hlo, hlop, hla, hlb, hlm⟩ hno hop hiaa hibb j hlt
        (hI.idx_lt j hlt).1 (hI.idx_lt j hlt).2]
      exact hI.rows_ok j hlt
    · have hjn : j = c.num_rows := by omega
      subst hjn
      unfold Circuit.row_check Circuit.get_output_wire
      have e1 : (c.new_input v).1.idx_a.getD c.num_rows 0 = c.num_rows := by
        rw [hiaa, List.getD_append_right _ _ _ _ (by omega), hla, Nat.sub_self,
          List.getD_cons_zero]
      have e2 : (c.new_input v).1.idx_b.getD c.num_rows 0 = 0 := by
        rw [hibb, List.getD_append_right _ _ _ _ (by omega), hlb, Nat.sub_self,
          List.getD_cons_zero]
      have e3 : (c.new_input v).1.op.getD c.num_rows 0 = 1 := by
        rw [hop, List.getD_append_right _ _ _ _ (by omega), hlop, Nat.sub_self,
          List.getD_cons_zero]
      have e4 : (c.new_input v).1.output_wires.getD 0 0 = 0 := by
        rw [hext.2 0 (by omega)]
        exact hI.out0
      rw [e1, e2, e3, e4, hval, decide_eq_true_iff]
      ring
  · intro e he
    rw [hcm] at he
    have h := hI.const_ok e he
    refine ⟨by omega, ?_⟩
    rw [hext.2 e.2 h.1]
    exact h.2

/-- `new_witness` soundness (identical shape to `new_input`). -/

theorem new_witness_sound (c : Circuit) (v : F) (hI : CInv c) :
    CInv (c.new_witness v).1 ∧ OutExt c (c.new_witness v).1
    ∧ (c.new_witness v).2 = c.num_rows
    ∧ (c.new_witness v).1.num_rows = c.num_rows + 1
    ∧ (c.new_witness v).1.output_wires.getD c.num_rows 0 = v := by
  obtain ⟨hlo, hlop, hla, hlb, hlm⟩ := hI.wf
  have htwo := hI.two
  have hno : (c.new_witness v).1.output_wires = c.output_wires ++ [v] := rfl
  have hop : (c.new_witness v).1.op = c.op ++ [1] := rfl
  have hiaa : (c.new_witness v).1.idx_a = c.idx_a ++ [c.num_rows] := rfl
  have hibb : (c.new_witness v).1.idx_b = c.idx_b ++ [0] := rfl
  have hn : (c.new_witness v).1.num_rows = c.num_rows + 1 := rfl
  have hcm : (c.new_witness v).1.constant_maps = c.constant_maps := rfl
  have hval : (c.new_witness v).1.output_wires.getD c.num_rows 0 = v := by
    rw [hno, List.getD_append_right _ _ _ _ (by omega), hlo, Nat.sub_self,
      List.getD_cons_zero]
  have hext : OutExt c (c.new_witness v).1 := by
    refine ⟨by omega, fun j hj => ?_⟩
    rw [hno]
    exact List.getD_append _ _ _ _ (by omega)
  have hml : (c.new_witness v).1.mult.length = c.mult.length + 1 := by
    show ((c.mult ++ [1]).set 0 _).length = c.mult.length + 1
    rw [List.length_set, List.length_append, List.length_singleton]
  refine ⟨⟨⟨?_, ?_, ?_, ?_, ?_⟩, by omega, ?_, ?_, ?_, ?_, ?_⟩, hext, rfl, hn, hval⟩
  · rw [hno, hn, List.length_append, List.length_singleton, hlo]
  · rw [hop, hn, List.length_append, List.length_singleton, hlop]
  · rw [hiaa, hn, List.length_append, List.length_singleton, hla]
  · rw [hibb, hn, List.length_append, List.length_singleton, hlb]
  · rw [hml, hn, hlm]
  · rw [hext.2 0 (by omega)]
    exact hI.out0
  · rw [hext.2 1 (by omega)]
    exact hI.out1
  · intro j hj
    rw [hn] at hj
    rw [hiaa, hibb, hn]
    rcases Nat.lt_or_ge j c.num_rows with hlt | hge
    · have e1 : (c.idx_a ++ [c.num_rows]).getD j 0 = c.idx_a.getD j 0 :=
        List.getD_append _ _ _ _ (by omega)
      have e2 : (c.idx_b ++ [0]).getD j 0 = c.idx_b.getD j 0 :=
        List.getD_append _ _ _ _ (by omega)
      rw [e1, e2]
      have := hI.idx_lt j hlt
      omega
    · have hjn : j = c.num_rows := by omega
      subst hjn
      have e1 : (c.idx_a ++ [c.num_rows]).getD c.num_rows 0 = c.num_rows := by
        rw [List.getD_append_right _ _ _ _ (by omega), hla, Nat.sub_self,
          List.getD_cons_zero]
      have e2 : (c.idx_b ++ [0]).getD c.num_rows 0 = 0 := by
        rw [List.getD_append_right _ _ _ _ (by omega), hlb, Nat.sub_self,
          List.getD_cons_zero]
      rw [e1, e2]
      omega
  · intro j hj
    rw [hn] at hj
    rcases Nat.lt_or_ge j c.num_rows with hlt | hge
    · rw [row_check_append c (c.new_witness v).1 v 1 c.num_rows 0
        ⟨hlo, hlop, hla, hlb, hlm⟩ hno hop hiaa hibb j hlt
        (hI.idx_lt j hlt).1 (hI.idx_lt j hlt).2]
      exact hI.rows_ok j hlt
    · have hjn : j = c.num_rows := by omega
      subst hjn
      unfold Circuit.row_check Circuit.get_output_wire
      have e1 : (c.new_witness v).1.idx_a.getD c.num_rows 0 = c.num_rows := by
        rw [hiaa, List.getD_append_right _ _ _ _ (by omega), hla, Nat.sub_self,
          List.getD_cons_zero]
      have e2 : (c.new_witness v).1.idx_b.getD c.num_rows 0 = 0 := by
        rw [hibb, List.getD_append_right _ _ _ _ (by omega), hlb, Nat.sub_self,
          List.getD_cons_zero]
      have e3 : (c.new_witness v).1.op.getD c.num_rows 0 = 1 := by
        rw [hop, List.getD_append_right _ _ _ _ (by omega), hlop, Nat.sub_self,
          List.getD_cons_zero]
      have e4 : (c.new_witness v).1.output_wires.getD 0 0 = 0 := by
        rw [hext.2 0 (by omega)]
        exact hI.out0
      rw [e1, e2, e3, e4, hval, decide_eq_true_iff]
      ring
  · intro e he
    rw [hcm] at he
    have h := hI.const_ok e he
    refine ⟨by omega, ?_⟩
    rw [hext.2 e.2 h.1]
    exact h.2

/-- `zero_test` soundness: when the tested row's output is 0, all row
checks still pass. -/

theorem zero_test_sound (c : Circuit) (t : Nat) (hI : CInv c)
    (ht : t < c.num_rows) (hz : c.output_wires.getD t 0 = 0) :
    CInv (c.zero_test t) ∧ OutExt c (c.zero_test t)
    ∧ (c.zero_test t).num_rows = c.num_rows + 1 := by
  obtain ⟨hlo, hlop, hla, hlb, hlm⟩ := hI.wf
  have htwo := hI.two
  have hno : (c.zero_test t).output_wires = c.output_wires ++ [0] := rfl
  have hop : (c.zero_test t).op = c.op ++ [1] := rfl
  have hiaa : (c.zero_test t).idx_a = c.idx_a ++ [t] := rfl
  have hibb : (c.zero_test t).idx_b = c.idx_b ++ [c.num_rows] := rfl
  have hn : (c.zero_test t).num_rows = c.num_rows + 1 := rfl
  have hcm : (c.zero_test t).constant_maps = c.constant_maps := rfl
  have hext : OutExt c (c.zero_test t) := by
    refine ⟨by omega, fun j hj => ?_⟩
    rw [hno]
    exact List.getD_append _ _ _ _ (by omega)
  have hvaln : (c.zero_test t).output_wires.getD c.num_rows 0 = 0 := by
    rw [hno, List.getD_append_right _ _ _ _ (by omega), hlo, Nat.sub_self,
      List.getD_cons_zero]
  have hml : (c.zero_test t).mult.length = c.mult.length + 1 := by
    show ((c.mult ++ [1]).set t _).length = c.mult.length + 1
    rw [List.length_set, List.length_append, List.length_singleton]
  refine ⟨⟨⟨?_, ?_, ?_, ?_, ?_⟩, by omega, ?_, ?_, ?_, ?_, ?_⟩, hext, hn⟩
  · rw [hno, hn, List.length_append, List.length_singleton, hlo]
  · rw [hop, hn, List.length_append, List.length_singleton, hlop]
  · rw [hiaa, hn, List.length_append, List.length_singleton, hla]
  · rw [hibb, hn, List.length_append, List.length_singleton, hlb]
  · rw [hml, hn, hlm]
  · rw [hext.2 0 (by omega)]
    exact hI.out0
  · rw [hext.2 1 (by omega)]
    exact hI.out1
  · intro j hj
    rw [hn] at hj
    rw [hiaa, hibb, hn]
    rcases Nat.lt_or_ge j c.num_rows with hlt | hge
    · have e1 : (c.idx_a ++ [t]).getD j 0 = c.idx_a.getD j 0 :=
        List.getD_append _ _ _ _ (by omega)
      have e2 : (c.idx_b ++ [c.num_rows]).getD j 0 = c.idx_b.getD j 0 :=
        List.getD_append _ _ _ _ (by omega)
      rw [e1, e2]
      have := hI.idx_lt j hlt
      omega
    · have hjn : j = c.num_rows := by omega
      subst hjn
      have e1 : (c.idx_a ++ [t]).getD c.num_rows 0 = t := by
        rw [List.getD_append_right _ _ _ _ (by omega), hla, Nat.sub_self,
          List.getD_cons_zero]
      have e2 : (c.idx_b ++ [c.num_rows]).getD c.num_rows 0 = c.num_rows := by
        rw [List.getD_append_right _ _ _ _ (by omega), hlb, Nat.sub_self,
          List.getD_cons_zero]
      rw [e1, e2]
      omega
  · intro j hj
    rw [hn] at hj
    rcases Nat.lt_or_ge j c.num_rows with hlt | hge
    · rw [row_check_append c (c.zero_test t) 0 1 t c.num_rows
        ⟨hlo, hlop, hla, hlb, hlm⟩ hno hop hiaa hibb j hlt
        (hI.idx_lt j hlt).1 (hI.idx_lt j hlt).2]
      exact hI.rows_ok j hlt
    · have hjn : j = c.num_rows := by omega
      subst hjn
      unfold Circuit.row_check Circuit.get_output_wire
      have e1 : (c.zero_test t).idx_a.getD c.num_rows 0 = t := by
        rw [hiaa, List.getD_append_right _ _ _ _ (by omega), hla, Nat.sub_self,
          List.getD_cons_zero]
      have e2 : (c.zero_test t).idx_b.getD c.num_rows 0 = c.num_rows := by
        rw [hibb, List.getD_append_right _ _ _ _ (by omega), hlb, Nat.sub_self,
          List.getD_cons_zero]
      have e3 : (c.zero_test t).op.getD c.num_rows 0 = 1 := by
        rw [hop, List.getD_append_right _ _ _ _ (by omega), hlop, Nat.sub_self,
          List.getD_cons_zero]
      have e4 : (c.zero_test t).output_wires.getD t 0 = 0 := by
        rw [hext.2 t (by omega)]
        exact hz
      rw [e1, e2, e3, e4, hvaln, decide_eq_true_iff]
      ring
  · intro e he
    rw [hcm] at he
    have h := hI.const_ok e he
    refine ⟨by omega, ?_⟩
    rw [hext.2 e.2 h.1]
    exact h.2

/-- Transport of the soundness invariant along an output extension. -/

theorem soundinv_ext (x : List F) (c : Circuit) (al : OnDemandAllocator) (c' : Circuit)
    (hS : SoundInv x (c, al)) (hI : CInv c') (hE : OutExt c c') : SoundInv x (c', al) := by
  refine ⟨hI, ?_, hS.asg⟩
  intro e he
  have hm := hS.val_ok e he
  have hm1 : e.2 < c.num_rows := hm.1
  have hm2 : c.output_wires.getD e.2 0 = x.getD e.1 0 := hm.2
  have hE1 : c.num_rows ≤ c'.num_rows := hE.1
  refine ⟨?_, ?_⟩
  · show e.2 < c'.num_rows
    omega
  · show c'.output_wires.getD e.2 0 = x.getD e.1 0
    rw [hE.2 e.2 hm1]
    exact hm2

/-- `allocator_get` soundness: the returned row holds `x[idx]`. -/

theorem allocator_get_sound (x : List F) (s : PState) (i : Nat) (hS : SoundInv x s) :
    SoundInv x (allocator_get s i).1
    ∧ OutExt s.1 (allocator_get s i).1.1
    ∧ (allocator_get s i).2 < (allocator_get s i).1.1.num_rows
    ∧ (allocator_get s i).1.1.output_wires.getD (allocator_get s i).2 0 = x.getD i 0 := by
  unfold allocator_get
  cases hl : s.2.mapping.lookup i with
  | some v =>
    have hm := hS.val_ok _ (lookup_mem _ _ _ hl)
    exact ⟨hS, OutExt.rfl _, hm.1, hm.2⟩
  | none =>
    dsimp only
    have hv : s.2.assignments.getD i 0 = x.getD i 0 := by rw [hS.asg]
    by_cases hi : i < s.2.num_input
    · rw [if_pos hi]
      have h := new_input_sound s.1 (s.2.assignments.getD i 0) hS.ci
      refine ⟨⟨h.1, ?_, hS.asg⟩, h.2.1, ?_, ?_⟩
      · intro e he
        rcases List.mem_cons.mp he with he0 | he1
        · subst he0
          dsimp only
          refine ⟨by rw [h.2.2.2.1, h.2.2.1]; omega, ?_⟩
          rw [h.2.2.1, h.2.2.2.2, hv]
        · have hm := hS.val_ok e he1
          refine ⟨by rw [h.2.2.2.1]; have := hm.1; omega, ?_⟩
          rw [h.2.1.2 e.2 hm.1]
          exact hm.2
      · show (s.1.new_input _).2 < (s.1.new_input _).1.num_rows
        rw [h.2.2.1, h.2.2.2.1]
        omega
      · show (s.1.new_input _).1.output_wires.getD (s.1.new_input _).2 0 = _
        rw [h.2.2.1, h.2.2.2.2, hv]
    · rw [if_neg hi]
      have h := new_witness_sound s.1 (s.2.assignments.getD i 0) hS.ci
      refine ⟨⟨h.1, ?_, hS.asg⟩, h.2.1, ?_, ?_⟩
      · intro e he
        rcases List.mem_cons.mp he with he0 | he1
        · subst he0
          dsimp only
          refine ⟨by rw [h.2.2.2.1, h.2.2.1]; omega, ?_⟩
          rw [h.2.2.1, h.2.2.2.2, hv]
        · have hm := hS.val_ok e he1
          refine ⟨by rw [h.2.2.2.1]; have := hm.1; omega, ?_⟩
          rw [h.2.1.2 e.2 hm.1]
          exact hm.2
      · show (s.1.new_witness _).2 < (s.1.new_witness _).1.num_rows
        rw [h.2.2.1, h.2.2.2.1]
        omega
      · show (s.1.new_witness _).1.output_wires.getD (s.1.new_witness _).2 0 = _
        rw [h.2.2.1, h.2.2.2.2, hv]

/-- One step of the `reduce_coefs` summation loop adds `coeff · x[var]`. -/

theorem reduce_step_sound (x : List F) (acc : PState × Nat) (e : Nat × F)
    (hS : SoundInv x acc.1) (hr : acc.2 < acc.1.1.num_rows) :
    SoundInv x (reduce_step acc e).1
    ∧ OutExt acc.1.1 (reduce_step acc e).1.1
    ∧ (reduce_step acc e).2 < (reduce_step acc e).1.1.num_rows
    ∧ (reduce_step acc e).1.1.output_wires.getD (reduce_step acc e).2 0
      = acc.1.1.output_wires.getD acc.2 0 + e.2 * x.getD e.1 0 := by
  unfold reduce_step
  dsimp only
  have hget := allocator_get_sound x acc.1 e.1 hS
  by_cases h1 : e.2 = 1
  · rw [if_pos h1]
    dsimp only
    have hadd := add_sound (allocator_get acc.1 e.1).1.1 acc.2 (allocator_get acc.1 e.1).2
      hget.1.ci (by have := hget.2.1.1; omega) hget.2.2.1
    refine ⟨soundinv_ext x _ _ _ hget.1 hadd.1 hadd.2.1,
      hget.2.1.trans hadd.2.1, ?_, ?_⟩
    · show ((allocator_get acc.1 e.1).1.1.add acc.2 (allocator_get acc.1 e.1).2).2
        < ((allocator_get acc.1 e.1).1.1.add acc.2 (allocator_get acc.1 e.1).2).1.num_rows
      rw [hadd.2.2.1, hadd.2.2.2.1]
      omega
    · show ((allocator_get acc.1 e.1).1.1.add acc.2 (allocator_get acc.1 e.1).2).1.output_wires.getD
        ((allocator_get acc.1 e.1).1.1.add acc.2 (allocator_get acc.1 e.1).2).2 0 = _
      rw [hadd.2.2.1, hadd.2.2.2.2, hget.2.1.2 acc.2 hr, hget.2.2.2, h1]
      ring
  · rw [if_neg h1]
    have hm := mul_by_constant_sound (allocator_get acc.1 e.1).1.1
      (allocator_get acc.1 e.1).2 e.2 hget.1.ci hget.2.2.1
    have hadd := add_sound ((allocator_get acc.1 e.1).1.1.mul_by_constant
        (allocator_get acc.1 e.1).2 e.2).1 acc.2
      ((allocator_get acc.1 e.1).1.1.mul_by_constant (allocator_get acc.1 e.1).2 e.2).2
      hm.1 (by rw [hm.2.2.2.1]; have := hget.2.1.1; omega)
      (by rw [hm.2.2.1, hm.2.2.2.1]; omega)
    refine ⟨soundinv_ext x _ _ _ hget.1 hadd.1 (hm.2.1.trans hadd.2.1),
      hget.2.1.trans (hm.2.1.trans hadd.2.1), ?_, ?_⟩
    · rw [hadd.2.2.1, hadd.2.2.2.1]
      omega
    · have hr' : acc.2 < (allocator_get acc.1 e.1).1.1.num_rows := by
        have := hget.2.1.1
        omega
      rw [hadd.2.2.1, hadd.2.2.2.2, hm.2.1.2 acc.2 hr']
      rw [show ((allocator_get acc.1 e.1).1.1.mul_by_constant
        (allocator_get acc.1 e.1).2 e.2).1.output_wires.getD
        ((allocator_get acc.1 e.1).1.1.mul_by_constant
          (allocator_get acc.1 e.1).2 e.2).2 0
        = e.2 * x.getD e.1 0 from by rw [hm.2.2.1, hm.2.2.2.2, hget.2.2.2]]
      rw [hget.2.1.2 acc.2 hr]

/-- The loop over the remaining `cs` entries accumulates `csSum`. -/

theorem reduce_fold_sound (x : List F) (rest : List (Nat × F)) (acc : PState × Nat)
    (hS : SoundInv x acc.1) (hr : acc.2 < acc.1.1.num_rows) :
    SoundInv x (rest.foldl reduce_step acc).1
    ∧ OutExt acc.1.1 (rest.foldl reduce_step acc).1.1
    ∧ (rest.foldl reduce_step acc).2 < (rest.foldl reduce_step acc).1.1.num_rows
    ∧ (rest.foldl reduce_step acc).1.1.output_wires.getD (rest.foldl reduce_step acc).2 0
      = acc.1.1.output_wires.getD acc.2 0 + csSum x rest := by
  induction rest generalizing acc with
  | nil =>
    refine ⟨hS, OutExt.rfl _, hr, ?_⟩
    rw [List.foldl_nil, csSum]
    ring
  | cons e r ih =>
    rw [List.foldl_cons]
    have hstep := reduce_step_sound x acc e hS hr
    have hih := ih (reduce_step acc e) hstep.1 hstep.2.2.1
    refine ⟨hih.1, hstep.2.1.trans hih.2.1, hih.2.2.1, ?_⟩
    rw [hih.2.2.2, hstep.2.2.2, csSum]
    ring

/-- `reduce_coefs` soundness: given `x₀ = 1`, the returned row holds the
value of the linear combination — except that when every usable term is
absent (`csOf = []`) it returns row 0 holding 0, dropping the constant
part. -/

theorem reduce_coefs_sound (x : List F) (s : PState) (lc : LinComb)
    (hS : SoundInv x s) (hx0 : x.getD 0 0 = 1) :
    SoundInv x (reduce_coefs s lc).1
    ∧ OutExt s.1 (reduce_coefs s lc).1.1
    ∧ (reduce_coefs s lc).2 < (reduce_coefs s lc).1.1.num_rows
    ∧ (reduce_coefs s lc).1.1.output_wires.getD (reduce_coefs s lc).2 0
      = if csOf lc = [] then 0 else dotLC x lc := by
  unfold reduce_coefs
  dsimp only
  cases hcs : csOf lc with
  | nil =>
    dsimp only
    refine ⟨hS, OutExt.rfl _, by have := hS.ci.two; omega, ?_⟩
    rw [if_pos rfl]
    exact hS.ci.out0
  | cons c0 rest =>
    dsimp only
    rw [if_neg (by simp : ¬ (c0 :: rest = ([] : List (Nat × F))))]
    rw [show dotLC x lc = ksum lc + csSum x (c0 :: rest) from by
      rw [dot_decomp, hx0, hcs]; ring]
    rw [csSum]
    have hget := allocator_get_sound x s c0.1 hS
    by_cases h1 : c0.2 = 1
    · rw [if_pos h1]
      have hfold := reduce_fold_sound x rest
        (((allocator_get s c0.1).1.1, (allocator_get s c0.1).1.2), (allocator_get s c0.1).2)
        hget.1 hget.2.2.1
      by_cases hk : ksum lc = 0
      · rw [if_neg (not_not_intro hk)]
        refine ⟨hfold.1, hget.2.1.trans hfold.2.1, hfold.2.2.1, ?_⟩
        rw [hfold.2.2.2, hget.2.2.2, hk, h1]
        ring
      · rw [if_pos hk]
        set sr := rest.foldl reduce_step
          (((allocator_get s c0.1).1.1, (allocator_get s c0.1).1.2), (allocator_get s c0.1).2)
          with hsr
        have hkc := new_constant_sound sr.1.1 (ksum lc) hfold.1.ci
        have hadd := add_sound (sr.1.1.new_constant (ksum lc)).1 sr.2
          (sr.1.1.new_constant (ksum lc)).2 hkc.1
          (by have := hkc.2.1.1; have := hfold.2.2.1; omega) hkc.2.2.1
        refine ⟨soundinv_ext x _ _ _ hfold.1 hadd.1 (hkc.2.1.trans hadd.2.1),
          hget.2.1.trans (hfold.2.1.trans (hkc.2.1.trans hadd.2.1)), ?_, ?_⟩
        · rw [hadd.2.2.1, hadd.2.2.2.1]
          omega
        · rw [hadd.2.2.1, hadd.2.2.2.2, hkc.2.1.2 sr.2 hfold.2.2.1, hkc.2.2.2,
            hfold.2.2.2, hget.2.2.2, h1]
          ring
    · rw [if_neg h1]
      have hm := mul_by_constant_sound (allocator_get s c0.1).1.1
        (allocator_get s c0.1).2 c0.2 hget.1.ci hget.2.2.1
      have hmS : SoundInv x
          (((allocator_get s c0.1).1.1.mul_by_constant (allocator_get s c0.1).2 c0.2).1,
            (allocator_get s c0.1).1.2) :=
        soundinv_ext x _ _ _ hget.1 hm.1 hm.2.1
      have hmr : ((allocator_get s c0.1).1.1.mul_by_constant
          (allocator_get s c0.1).2 c0.2).2
          < ((allocator_get s c0.1).1.1.mul_by_constant
            (allocator_get s c0.1).2 c0.2).1.num_rows := by
        rw [hm.2.2.1, hm.2.2.2.1]
        omega
      have hfold := reduce_fold_sound x rest
        ((((allocator_get s c0.1).1.1.mul_by_constant (allocator_get s c0.1).2 c0.2).1,
            (allocator_get s c0.1).1.2),
          ((allocator_get s c0.1).1.1.mul_by_constant (allocator_get s c0.1).2 c0.2).2)
        hmS hmr
      have hval0 : ((allocator_get s c0.1).1.1.mul_by_constant
          (allocator_get s c0.1).2 c0.2).1.output_wires.getD
          ((allocator_get s c0.1).1.1.mul_by_constant
            (allocator_get s c0.1).2 c0.2).2 0 = c0.2 * x.getD c0.1 0 := by
        rw [hm.2.2.1, hm.2.2.2.2, hget.2.2.2]
      by_cases hk : ksum lc = 0
      · rw [if_neg (not_not_intro hk)]
        refine ⟨hfold.1, hget.2.1.trans (hm.2.1.trans hfold.2.1), hfold.2.2.1, ?_⟩
        rw [hfold.2.2.2, hval0, hk]
        ring
      · rw [if_pos hk]
        set sr := rest.foldl reduce_step
          ((((allocator_get s c0.1).1.1.mul_by_constant (allocator_get s c0.1).2 c0.2).1,
              (allocator_get s c0.1).1.2),
            ((allocator_get s c0.1).1.1.mul_by_constant (allocator_get s c0.1).2 c0.2).2)
          with hsr
        have hkc := new_constant_sound sr.1.1 (ksum lc) hfold.1.ci
        have hadd := add_sound (sr.1.1.new_constant (ksum lc)).1 sr.2
          (sr.1.1.new_constant (ksum lc)).2 hkc.1
          (by have := hkc.2.1.1; have := hfold.2.2.1; omega) hkc.2.2.1
        refine ⟨soundinv_ext x _ _ _ hfold.1 hadd.1 (hkc.2.1.trans hadd.2.1),
          hget.2.1.trans (hm.2.1.trans (hfold.2.1.trans (hkc.2.1.trans hadd.2.1))),
          ?_, ?_⟩
        · rw [hadd.2.2.1, hadd.2.2.2.1]
          omega
        · rw [hadd.2.2.1, hadd.2.2.2.2, hkc.2.1.2 sr.2 hfold.2.2.1, hkc.2.2.2,
            hfold.2.2.2, hval0]
          ring

/-- A circuit satisfying the invariant passes `is_constraint_satisfied`. -/

theorem cinv_satisfied (c : Circuit) (hI : CInv c) : c.is_constraint_satisfied = true := by
  obtain ⟨h1, h2, h3, h4, h5⟩ := hI.wf
  unfold Circuit.is_constraint_satisfied
  simp only [Bool.and_eq_true, decide_eq_true_eq, List.all_eq_true]
  refine ⟨⟨⟨⟨⟨by omega, by omega⟩, by omega⟩, by omega⟩, by omega⟩, ?_⟩
  intro j hj
  exact hI.rows_ok j (List.mem_range.mp hj)

/-- On a `goodLC` combination, `reduce_coefs` returns its exact value. -/

theorem reduce_coefs_good (x : List F) (s : PState) (lc : LinComb)
    (hS : SoundInv x s) (hx0 : x.getD 0 0 = 1) (hg : goodLC lc) :
    SoundInv x (reduce_coefs s lc).1
    ∧ OutExt s.1 (reduce_coefs s lc).1.1
    ∧ (reduce_coefs s lc).2 < (reduce_coefs s lc).1.1.num_rows
    ∧ (reduce_coefs s lc).1.1.output_wires.getD (reduce_coefs s lc).2 0 = dotLC x lc := by
  have h := reduce_coefs_sound x s lc hS hx0
  refine ⟨h.1, h.2.1, h.2.2.1, ?_⟩
  rw [h.2.2.2]
  by_cases hc : csOf lc = []
  · rw [if_pos hc, dot_decomp, hg hc, hc, hx0, csSum]
    ring
  · rw [if_neg hc]

/-- `process_r1cs_addition_constraint` soundness: fed a combination whose
value is 0, it preserves the invariant. -/

theorem process_addition_sound (x : List F) (s : PState) (c : LinComb)
    (hS : SoundInv x s) (hx0 : x.getD 0 0 = 1) (hc : dotLC x c = 0) :
    SoundInv x (process_r1cs_addition_constraint s c)
    ∧ OutExt s.1 (process_r1cs_addition_constraint s c).1 := by
  unfold process_r1cs_addition_constraint
  dsimp only
  have hr := reduce_coefs_sound x s c hS hx0
  have hz : (reduce_coefs s c).1.1.output_wires.getD (reduce_coefs s c).2 0 = 0 := by
    rw [hr.2.2.2]
    split
    · rfl
    · exact hc
  have hzt := zero_test_sound (reduce_coefs s c).1.1 (reduce_coefs s c).2 hr.1.ci
    hr.2.2.1 hz
  exact ⟨soundinv_ext x _ _ _ hr.1 hzt.1 hzt.2.1, hr.2.1.trans hzt.2.1⟩

/-- Reduce a combination and scale by `k` (the `rv` / `mv` prefix shared by
the equality processor's branches). -/

theorem reduce_scale_sound (x : List F) (s : PState) (lc : LinComb) (k : F)
    (hS : SoundInv x s) (hx0 : x.getD 0 0 = 1) (hg : goodLC lc) :
    SoundInv x ((if k = 1 then ((reduce_coefs s lc).1.1, (reduce_coefs s lc).2)
        else (reduce_coefs s lc).1.1.mul_by_constant (reduce_coefs s lc).2 k).1,
      (reduce_coefs s lc).1.2)
    ∧ OutExt s.1 (if k = 1 then ((reduce_coefs s lc).1.1, (reduce_coefs s lc).2)
        else (reduce_coefs s lc).1.1.mul_by_constant (reduce_coefs s lc).2 k).1
    ∧ (if k = 1 then ((reduce_coefs s lc).1.1, (reduce_coefs s lc).2)
        else (reduce_coefs s lc).1.1.mul_by_constant (reduce_coefs s lc).2 k).2
      < (if k = 1 then ((reduce_coefs s lc).1.1, (reduce_coefs s lc).2)
        else (reduce_coefs s lc).1.1.mul_by_constant (reduce_coefs s lc).2 k).1.num_rows
    ∧ (if k = 1 then ((reduce_coefs s lc).1.1, (reduce_coefs s lc).2)
        else (reduce_coefs s lc).1.1.mul_by_constant (reduce_coefs s lc).2 k).1.output_wires.getD
        ((if k = 1 then ((reduce_coefs s lc).1.1, (reduce_coefs s lc).2)
          else (reduce_coefs s lc).1.1.mul_by_constant (reduce_coefs s lc).2 k).2) 0
      = k * dotLC x lc := by
  have hr := reduce_coefs_good x s lc hS hx0 hg
  by_cases h1 : k = 1
  · rw [if_pos h1]
    refine ⟨hr.1, hr.2.1, hr.2.2.1, ?_⟩
    show (reduce_coefs s lc).1.1.output_wires.getD (reduce_coefs s lc).2 0 = k * dotLC x lc
    rw [hr.2.2.2, h1]
    ring
  · rw [if_neg h1]
    have hm := mul_by_constant_sound (reduce_coefs s lc).1.1 (reduce_coefs s lc).2 k
      hr.1.ci hr.2.2.1
    refine ⟨soundinv_ext x _ _ _ hr.1 hm.1 hm.2.1, hr.2.1.trans hm.2.1, ?_, ?_⟩
    · rw [hm.2.2.1, hm.2.2.2.1]
      omega
    · rw [hm.2.2.1, hm.2.2.2.2, hr.2.2.2]

/-- The generic emission tail shared by the equality processor: given a row
`r` holding `⟨c, x⟩`, reduce `c`, negate it, add, and zero-test; the helper
row holds `⟨c, x⟩ − ⟨c, x⟩ = 0`, so the invariant is preserved. -/

theorem equal_tail_sound (x : List F) (s1 : PState) (r : Nat) (c : LinComb)
    (hS : SoundInv x s1) (hx0 : x.getD 0 0 = 1) (hgc : goodLC c)
    (hr : r < s1.1.num_rows)
    (hval : s1.1.output_wires.getD r 0 = dotLC x c) :
    SoundInv x
      ((((reduce_coefs s1 c).1.1.neg (reduce_coefs s1 c).2).1.add r
          ((reduce_coefs s1 c).1.1.neg (reduce_coefs s1 c).2).2).1.zero_test
        (((reduce_coefs s1 c).1.1.neg (reduce_coefs s1 c).2).1.add r
          ((reduce_coefs s1 c).1.1.neg (reduce_coefs s1 c).2).2).2,
        (reduce_coefs s1 c).1.2)
    ∧ OutExt s1.1
      ((((reduce_coefs s1 c).1.1.neg (reduce_coefs s1 c).2).1.add r
          ((reduce_coefs s1 c).1.1.neg (reduce_coefs s1 c).2).2).1.zero_test
        (((reduce_coefs s1 c).1.1.neg (reduce_coefs s1 c).2).1.add r
          ((reduce_coefs s1 c).1.1.neg (reduce_coefs s1 c).2).2).2) := by
  have hrc := reduce_coefs_good x s1 c hS hx0 hgc
  have hnv := neg_sound _ _ hrc.1.ci hrc.2.2.1
  have hrlt := Nat.lt_of_lt_of_le hr hrc.2.1.1
  have hadd := add_sound ((reduce_coefs s1 c).1.1.neg (reduce_coefs s1 c).2).1 r
    (((reduce_coefs s1 c).1.1.neg (reduce_coefs s1 c).2).2) hnv.1
    (by rw [hnv.2.2.2.1]; omega) (by rw [hnv.2.2.1, hnv.2.2.2.1]; omega)
  have hzt := zero_test_sound _
    ((((reduce_coefs s1 c).1.1.neg (reduce_coefs s1 c).2).1.add r
      (((reduce_coefs s1 c).1.1.neg (reduce_coefs s1 c).2).2)).2) hadd.1
    (by rw [hadd.2.2.1, hadd.2.2.2.1]; omega)
    (by rw [hadd.2.2.1, hadd.2.2.2.2, hnv.2.1.2 _ hrlt, hrc.2.1.2 _ hr, hval,
      hnv.2.2.1, hnv.2.2.2.2, hrc.2.2.2]; ring)
  exact ⟨soundinv_ext x _ _ _ hrc.1 hzt.1 ((hnv.2.1.trans hadd.2.1).trans hzt.2.1),
    hrc.2.1.trans ((hnv.2.1.trans hadd.2.1).trans hzt.2.1)⟩

/-- `process_r1cs_equal_after_swap` soundness: when the encoded relation
`k · ⟨a_or_b, x⟩ = ⟨c, x⟩` holds and both combinations are `goodLC`, any
non-panicking run preserves the invariant. -/

theorem process_equal_after_swap_sound (x : List F) (s : PState) (a_or_b : LinComb)
    (k : F) (c : LinComb) (s' : PState) (hS : SoundInv x s) (hx0 : x.getD 0 0 = 1)
    (hga : goodLC a_or_b) (hgc : goodLC c)
    (hsem : k * dotLC x a_or_b = dotLC x c)
    (h : process_r1cs_equal_after_swap s a_or_b k c = some s') :
    SoundInv x s' ∧ OutExt s.1 s'.1 := by
  unfold process_r1cs_equal_after_swap at h
  dsimp only at h
  have hmv := reduce_scale_sound x s a_or_b k hS hx0 hga
  by_cases hbr : c.length = 1
      ∧ ¬ (reduce_coefs s a_or_b).1.2.is_allocated (c.headD (0, 0)).2
  · rw [if_pos hbr] at h
    obtain ⟨t, rfl⟩ := List.length_eq_one.mp hbr.1
    rw [show ([t] : LinComb).headD (0, 0) = t from rfl] at h
    have hdc : dotLC x [t] = t.1 * x.getD t.2 0 := by
      rw [dotLC, dotLC]
      ring
    by_cases hc1 : t.1 = 1
    · rw [if_pos hc1] at h
      cases h
      refine ⟨⟨hmv.1.ci, ?_, hmv.1.asg⟩, hmv.2.1⟩
      intro e he
      simp only [OnDemandAllocator.set_allocated] at he
      rcases List.mem_cons.mp he with he0 | he1
      · subst he0
        dsimp only
        refine ⟨hmv.2.2.1, ?_⟩
        rw [hmv.2.2.2, hsem, hdc, hc1]
        ring
      · exact hmv.1.val_ok e he1
    · rw [if_neg hc1] at h
      by_cases hc0 : t.1 = 0
      · rw [if_pos hc0] at h
        exact absurd h (by simp)
      · rw [if_neg hc0] at h
        have him := mul_by_constant_sound _ _ (t.1)⁻¹ hmv.1.ci hmv.2.2.1
        have hS2 := soundinv_ext x _ _ _ hmv.1 him.1 him.2.1
        cases h
        refine ⟨⟨hS2.ci, ?_, hS2.asg⟩, hmv.2.1.trans him.2.1⟩
        intro e he
        simp only [OnDemandAllocator.set_allocated] at he
        rcases List.mem_cons.mp he with he0 | he1
        · subst he0
          dsimp only
          refine ⟨by rw [him.2.2.1, him.2.2.2.1]; omega, ?_⟩
          rw [him.2.2.1, him.2.2.2.2, hmv.2.2.2, hsem, hdc, inv_mul_cancel_left₀ hc0]
        · exact hS2.val_ok e he1
  · rw [if_neg hbr] at h
    have htail := equal_tail_sound x _ _ c hmv.1 hx0 hgc hmv.2.2.1
      (hmv.2.2.2.trans hsem)
    cases h
    exact ⟨htail.1, hmv.2.1.trans htail.2⟩

/-- `process_r1cs_equal_constraint` soundness: the inlining swap divides by
the (non-zero) constant, so the encoded relation is preserved either way. -/

theorem process_equal_sound (x : List F) (s : PState) (a_or_b : LinComb) (k : F)
    (c : LinComb) (s' : PState) (hS : SoundInv x s) (hx0 : x.getD 0 0 = 1)
    (hga : goodLC a_or_b) (hgc : goodLC c) (hk : k ≠ 0)
    (hsem : k * dotLC x a_or_b = dotLC x c)
    (h : process_r1cs_equal_constraint s a_or_b k c = some s') :
    SoundInv x s' ∧ OutExt s.1 s'.1 := by
  unfold process_r1cs_equal_constraint at h
  by_cases h1 : c.length = 1 ∧ ¬ s.2.is_allocated (c.headD (0, 0)).2
  · rw [if_pos h1] at h
    exact process_equal_after_swap_sound x s a_or_b k c s' hS hx0 hga hgc hsem h
  · rw [if_neg h1] at h
    by_cases h2 : a_or_b.length = 1 ∧ ¬ s.2.is_allocated (a_or_b.headD (0, 0)).2
    · rw [if_pos h2, if_neg hk] at h
      exact process_equal_after_swap_sound x s c k⁻¹ a_or_b s' hS hx0 hgc hga
        (by rw [← hsem, inv_mul_cancel_left₀ hk]) h
    · rw [if_neg h2] at h
      exact process_equal_after_swap_sound x s a_or_b k c s' hS hx0 hga hgc hsem h

/-- `process_r1cs_multiplication_constraint` soundness. -/

theorem process_mult_sound (x : List F) (s : PState) (a b c : LinComb) (s' : PState)
    (hS : SoundInv x s) (hx0 : x.getD 0 0 = 1)
    (hga : goodLC a) (hgb : goodLC b) (hgc : goodLC c)
    (hsem : dotLC x a * dotLC x b = dotLC x c)
    (h : process_r1cs_multiplication_constraint s a b c = some s') :
    SoundInv x s' ∧ OutExt s.1 s'.1 := by
  unfold process_r1cs_multiplication_constraint at h
  dsimp only at h
  have hra := reduce_coefs_good x s a hS hx0 hga
  have hrb := reduce_coefs_good x _ b hra.1 hx0 hgb
  have hralt := Nat.lt_of_lt_of_le hra.2.2.1 hrb.2.1.1
  have hvala : (reduce_coefs (reduce_coefs s a).1 b).1.1.output_wires.getD
      (reduce_coefs s a).2 0 = dotLC x a := by
    rw [hrb.2.1.2 _ hra.2.2.1, hra.2.2.2]
  by_cases hbr : c.length = 1
      ∧ ¬ (reduce_coefs (reduce_coefs s a).1 b).1.2.is_allocated (c.headD (0, 0)).2
  · rw [if_pos hbr] at h
    obtain ⟨t, rfl⟩ := List.length_eq_one.mp hbr.1
    rw [show ([t] : LinComb).headD (0, 0) = t from rfl] at h
    have hdc : dotLC x [t] = t.1 * x.getD t.2 0 := by
      rw [dotLC, dotLC]
      ring
    have hmul := mul_sound (reduce_coefs (reduce_coefs s a).1 b).1.1
      (reduce_coefs s a).2 (reduce_coefs (reduce_coefs s a).1 b).2
      hrb.1.ci hralt hrb.2.2.1
    have hSmv := soundinv_ext x _ _ _ hrb.1 hmul.1 hmul.2.1
    have hvmul : ((reduce_coefs (reduce_coefs s a).1 b).1.1.mul (reduce_coefs s a).2
        (reduce_coefs (reduce_coefs s a).1 b).2).1.output_wires.getD
        ((reduce_coefs (reduce_coefs s a).1 b).1.1.mul (reduce_coefs s a).2
          (reduce_coefs (reduce_coefs s a).1 b).2).2 0 = dotLC x [t] := by
      rw [hmul.2.2.1, hmul.2.2.2.2, hvala, hrb.2.2.2, hsem]
    by_cases hc1 : t.1 = 1
    · rw [if_pos hc1] at h
      cases h
      refine ⟨⟨hSmv.ci, ?_, hSmv.asg⟩, (hra.2.1.trans hrb.2.1).trans hmul.2.1⟩
      intro e he
      simp only [OnDemandAllocator.set_allocated] at he
      rcases List.mem_cons.mp he with he0 | he1
      · subst he0
        dsimp only
        refine ⟨by rw [hmul.2.2.1, hmul.2.2.2.1]; omega, ?_⟩
        rw [hvmul, hdc, hc1]
        ring
      · exact hSmv.val_ok e he1
    · rw [if_neg hc1] at h
      by_cases hc0 : t.1 = 0
      · rw [if_pos hc0] at h
        exact absurd h (by simp)
      · rw [if_neg hc0] at h
        have him := mul_by_constant_sound _
          (((reduce_coefs (reduce_coefs s a).1 b).1.1.mul (reduce_coefs s a).2
            (reduce_coefs (reduce_coefs s a).1 b).2).2) (t.1)⁻¹ hmul.1
          (by rw [hmul.2.2.1, hmul.2.2.2.1]; omega)
        have hSiv := soundinv_ext x _ _ _ hSmv him.1 him.2.1
        cases h
        refine ⟨⟨hSiv.ci, ?_, hSiv.asg⟩,
          ((hra.2.1.trans hrb.2.1).trans hmul.2.1).trans him.2.1⟩
        intro e he
        simp only [OnDemandAllocator.set_allocated] at he
        rcases List.mem_cons.mp he with he0 | he1
        · subst he0
          dsimp only
          refine ⟨by rw [him.2.2.1, him.2.2.2.1]; omega, ?_⟩
          rw [him.2.2.1, him.2.2.2.2, hvmul, hdc, inv_mul_cancel_left₀ hc0]
        · exact hSiv.val_ok e he1
  · rw [if_neg hbr] at h
    have hrc := reduce_coefs_good x _ c hrb.1 hx0 hgc
    have hmul := mul_sound
      (reduce_coefs (reduce_coefs (reduce_coefs s a).1 b).1 c).1.1
      (reduce_coefs s a).2 (reduce_coefs (reduce_coefs s a).1 b).2
      hrc.1.ci (Nat.lt_of_lt_of_le hralt hrc.2.1.1)
      (Nat.lt_of_lt_of_le hrb.2.2.1 hrc.2.1.1)
    have hvmul : ((reduce_coefs (reduce_coefs (reduce_coefs s a).1 b).1 c).1.1.mul
        (reduce_coefs s a).2 (reduce_coefs (reduce_coefs s a).1 b).2).1.output_wires.getD
        ((reduce_coefs (reduce_coefs (reduce_coefs s a).1 b).1 c).1.1.mul
          (reduce_coefs s a).2 (reduce_coefs (reduce_coefs s a).1 b).2).2 0
        = dotLC x c := by
      rw [hmul.2.2.1, hmul.2.2.2.2,
        hrc.2.1.2 _ (Nat.lt_of_lt_of_le hra.2.2.1 hrb.2.1.1)]
      rw [hrc.2.1.2 _ hrb.2.2.1, hvala, hrb.2.2.2, hsem]
    have hnv := neg_sound _
      ((reduce_coefs (reduce_coefs (reduce_coefs s a).1 b).1 c).2) hmul.1
      (by rw [hmul.2.2.2.1]; have := hrc.2.2.1; omega)
    have hadd := add_sound _
      (((reduce_coefs (reduce_coefs (reduce_coefs s a).1 b).1 c).1.1.mul
        (reduce_coefs s a).2 (reduce_coefs (reduce_coefs s a).1 b).2).2)
      ((((reduce_coefs (reduce_coefs (reduce_coefs s a).1 b).1 c).1.1.mul
        (reduce_coefs s a).2 (reduce_coefs (reduce_coefs s a).1 b).2).1.neg
        ((reduce_coefs (reduce_coefs (reduce_coefs s a).1 b).1 c).2)).2)
      hnv.1
      (by rw [hnv.2.2.2.1, hmul.2.2.1, hmul.2.2.2.1]; omega)
      (by rw [hnv.2.2.1, hnv.2.2.2.1]; omega)
    have hmvlt : ((reduce_coefs (reduce_coefs (reduce_coefs s a).1 b).1 c).1.1.mul
        (reduce_coefs s a).2 (reduce_coefs (reduce_coefs s a).1 b).2).2
        < ((reduce_coefs (reduce_coefs (reduce_coefs s a).1 b).1 c).1.1.mul
          (reduce_coefs s a).2 (reduce_coefs (reduce_coefs s a).1 b).2).1.num_rows := by
      rw [hmul.2.2.1, hmul.2.2.2.1]
      omega
    have hzt := zero_test_sound _
      ((((reduce_coefs (reduce_coefs (reduce_coefs s a).1 b).1 c).1.1.mul
        (reduce_coefs s a).2 (reduce_coefs (reduce_coefs s a).1 b).2).1.neg
        ((reduce_coefs (reduce_coefs (reduce_coefs s a).1 b).1 c).2)).1.add
        (((reduce_coefs (reduce_coefs (reduce_coefs s a).1 b).1 c).1.1.mul
          (reduce_coefs s a).2 (reduce_coefs (reduce_coefs s a).1 b).2).2)
        ((((reduce_coefs (reduce_coefs (reduce_coefs s a).1 b).1 c).1.1.mul
          (reduce_coefs s a).2 (reduce_coefs (reduce_coefs s a).1 b).2).1.neg
          ((reduce_coefs (reduce_coefs (reduce_coefs s a).1 b).1 c).2)).2)).2
      hadd.1 (by rw [hadd.2.2.1, hadd.2.2.2.1]; omega)
      (by rw [hadd.2.2.1, hadd.2.2.2.2, hnv.2.1.2 _ hmvlt, hvmul,
        hnv.2.2.1, hnv.2.2.2.2, hmul.2.1.2 _ hrc.2.2.1, hrc.2.2.2]; ring)
    cases h
    exact ⟨soundinv_ext x _ _ _ hrc.1 hzt.1
        (((hmul.2.1.trans hnv.2.1).trans hadd.2.1).trans hzt.2.1),
      ((hra.2.1.trans hrb.2.1).trans hrc.2.1).trans
        (((hmul.2.1.trans hnv.2.1).trans hadd.2.1).trans hzt.2.1)⟩

/-- `goodLC` is stable under permutation. -/

theorem goodLC_perm {l l' : LinComb} (hp : l.Perm l') (hg : goodLC l) : goodLC l' :=
  fun hn => by
    rw [← ksum_perm hp]
    exact hg ((csOf_perm_nil hp).mpr hn)

/-- Sorting does not change the value of a combination. -/

theorem dotLC_sort (x : List F) (l : LinComb) :
    dotLC x (sort_linear_combinations l) = dotLC x l :=
  dotLC_perm x (List.perm_insertionSort _ _)

/-- Sorting preserves `goodLC`. -/

theorem goodLC_sort (l : LinComb) (hg : goodLC l) :
    goodLC (sort_linear_combinations l) :=
  goodLC_perm (List.perm_insertionSort _ _).symm hg

/-- `process_constraint` soundness: under `tripleOk` and the R1CS equation
of the triple, the dispatched processor preserves the invariant. -/

theorem process_constraint_sound (x : List F) (s : PState)
    (t3 : LinComb × LinComb × LinComb) (s' : PState)
    (hS : SoundInv x s) (hx0 : x.getD 0 0 = 1) (hok : tripleOk t3)
    (hsem : dotLC x t3.1 * dotLC x t3.2.1 = dotLC x t3.2.2)
    (h : process_constraint s t3 = some s') :
    SoundInv x s' ∧ OutExt s.1 s'.1 := by
  unfold process_constraint at h
  dsimp only at h
  unfold tripleOk at hok
  by_cases h1 : get_linear_combination_type t3.1 = LinearCombinationType.NULLABLE
      ∨ get_linear_combination_type t3.2.1 = LinearCombinationType.NULLABLE
  · rw [if_pos h1] at h
    cases h
    have hz : dotLC x (sort_linear_combinations t3.2.2) = 0 := by
      rw [dotLC_sort, ← hsem]
      rcases h1 with hn | hn
      · have hs := lct_nullable_spec _ hn
        rw [dot_of_nonconst_zero x _ hs.1, hs.2]
        ring
      · have hs := lct_nullable_spec _ hn
        rw [dot_of_nonconst_zero x _ hs.1, hs.2]
        ring
    exact process_addition_sound x s _ hS hx0 hz
  · rw [if_neg h1] at h
    rw [if_neg h1] at hok
    rcases hA : get_linear_combination_type t3.1 with _ | ka | _ <;>
      rcases hB : get_linear_combination_type t3.2.1 with _ | kb | _ <;>
      rw [hA, hB] at h hok <;>
      dsimp only [is_constant_lct] at h hok
    · rw [if_neg (by decide), if_neg (by decide)] at hok
      exact process_mult_sound x s _ _ _ s' hS hx0 (goodLC_sort _ hok.1)
        (goodLC_sort _ hok.2.1) (goodLC_sort _ hok.2.2)
        (by rw [dotLC_sort, dotLC_sort, dotLC_sort]; exact hsem) h
    · rw [if_neg (by decide), if_pos (by decide)] at hok
      have hs := lct_constant_spec _ kb hB
      have hdb : dotLC x t3.2.1 = kb := by
        rw [dot_of_nonconst_zero x _ hs.1, hs.2.1, hx0, mul_one]
      exact process_equal_sound x s t3.1 kb t3.2.2 s' hS hx0 hok.1 hok.2 hs.2.2
        (by rw [← hsem, hdb]; ring) h
    · exact absurd (Or.inr hB) h1
    · rw [if_pos (by decide)] at hok
      have hs := lct_constant_spec _ ka hA
      have hda : dotLC x t3.1 = ka := by
        rw [dot_of_nonconst_zero x _ hs.1, hs.2.1, hx0, mul_one]
      exact process_equal_sound x s t3.2.1 ka t3.2.2 s' hS hx0 hok.1 hok.2 hs.2.2
        (by rw [← hsem, hda]) h
    · rw [if_pos (by decide)] at hok
      have hs := lct_constant_spec _ ka hA
      have hda : dotLC x t3.1 = ka := by
        rw [dot_of_nonconst_zero x _ hs.1, hs.2.1, hx0, mul_one]
      exact process_equal_sound x s t3.2.1 ka t3.2.2 s' hS hx0 hok.1 hok.2 hs.2.2
        (by rw [← hsem, hda]) h
    · exact absurd (Or.inr hB) h1
    · exact absurd (Or.inl hA) h1
    · exact absurd (Or.inl hA) h1
    · exact absurd (Or.inl hA) h1

/-- Folding `process_constraint` over satisfied, `tripleOk` triples
preserves the invariant. -/

theorem fold_process_sound (x : List F) (ts : List (LinComb × LinComb × LinComb))
    (s s' : PState) (hS : SoundInv x s) (hx0 : x.getD 0 0 = 1)
    (hok : ∀ t ∈ ts, tripleOk t)
    (hsem : ∀ t ∈ ts, dotLC x t.1 * dotLC x t.2.1 = dotLC x t.2.2)
    (h : ts.foldlM process_constraint s = some s') : SoundInv x s' := by
  induction ts generalizing s with
  | nil =>
    rw [List.foldlM_nil] at h
    cases h
    exact hS
  | cons t r ih =>
    rw [List.foldlM_cons] at h
    cases hp : process_constraint s t with
    | none =>
      rw [hp] at h
      exact absurd h (by simp)
    | some s1 =>
      rw [hp] at h
      have hred : (some s1 >>= fun s2 => r.foldlM process_constraint s2)
          = r.foldlM process_constraint s1 := rfl
      rw [hred] at h
      have hstep := process_constraint_sound x s t s1 hS hx0
        (hok t (List.mem_cons_self t r)) (hsem t (List.mem_cons_self t r)) hp
      exact ih s1 hstep.1 (fun u hu => hok u (List.mem_cons_of_mem _ hu))
        (fun u hu => hsem u (List.mem_cons_of_mem _ hu)) h

/-- The allocator pre-allocation loop preserves the invariant. -/

theorem fold_allocator_sound (x : List F) (l : List Nat) (s : PState)
    (hS : SoundInv x s) :
    SoundInv x (l.foldl (fun s i => (allocator_get s i).1) s) := by
  induction l generalizing s with
  | nil => exact hS
  | cons i r ih =>
    rw [List.foldl_cons]
    exact ih _ (allocator_get_sound x s i hS).1

/-- The first pre-allocation (the R1CS one-variable) establishes the
invariant: starting from the bootstrap circuit it adds the input row
holding `x₀ = 1`. -/

theorem initial_first_sound (x : List F) (n : Nat) (hx0 : x.getD 0 0 = 1)
    (hn : 0 < n) :
    SoundInv x (allocator_get (Circuit.new, OnDemandAllocator.new x n) 0).1 := by
  unfold allocator_get OnDemandAllocator.new
  dsimp only [List.lookup]
  rw [if_pos hn, hx0]
  refine ⟨⟨?_, ?_, ?_, ?_, ?_, ?_, ?_⟩, ?_, rfl⟩
  · show (Circuit.new.new_input 1).1.well_formed
    decide
  · show 2 ≤ (Circuit.new.new_input 1).1.num_rows
    decide
  · show (Circuit.new.new_input 1).1.output_wires.getD 0 0 = 0
    decide
  · show (Circuit.new.new_input 1).1.output_wires.getD 1 0 = 1
    decide
  · show ∀ j < (Circuit.new.new_input 1).1.num_rows,
      (Circuit.new.new_input 1).1.idx_a.getD j 0 < (Circuit.new.new_input 1).1.num_rows
      ∧ (Circuit.new.new_input 1).1.idx_b.getD j 0 < (Circuit.new.new_input 1).1.num_rows
    decide
  · show ∀ j < (Circuit.new.new_input 1).1.num_rows,
      (Circuit.new.new_input 1).1.row_check j = true
    decide
  · show ∀ e ∈ (Circuit.new.new_input 1).1.constant_maps,
      e.2 < (Circuit.new.new_input 1).1.num_rows
      ∧ (Circuit.new.new_input 1).1.output_wires.getD e.2 0 = e.1
    decide
  intro e he
  rcases List.mem_cons.mp he with he0 | he1
  · subst he0
    refine ⟨?_, ?_⟩
    · show (0, (Circuit.new.new_input 1).2).2 < (Circuit.new.new_input 1).1.num_rows
      decide
    · show (Circuit.new.new_input 1).1.output_wires.getD
        (0, (Circuit.new.new_input 1).2).2 0
        = x.getD (0, (Circuit.new.new_input 1).2).1 0
      rw [show (0, (Circuit.new.new_input 1).2).1 = 0 from rfl, hx0]
      decide
  · exact absurd he1 (List.not_mem_nil e)

/-- The instance pre-allocation establishes the invariant (needs at least
the one-variable, and `x₀ = 1`). -/

theorem initial_state_sound (x : List F) (n : Nat) (hx0 : x.getD 0 0 = 1)
    (hn : 1 ≤ n) : SoundInv x (initial_state n x) := by
  unfold initial_state
  obtain ⟨m, rfl⟩ : ∃ m, n = m + 1 := ⟨n - 1, by omega⟩
  rw [List.range_succ_eq_map, List.foldl_cons]
  exact fold_allocator_sound x _ _ (initial_first_sound x (m + 1) hx0 (by omega))

/-- Extract the `some` form of an option known to be populated. -/

theorem option_eq_some_getD {α : Type} (o : Option α) (d : α) (h : o.isSome = true) :
    o = some (o.getD d) := by
  cases o with
  | none => cases h
  | some a => rfl

/-- C1 (amended): local soundness of the lowering holds under two side
conditions the claim omits.  If the assignment satisfies every R1CS
constraint over M31, the one-variable is present (`1 ≤ num_input`,
`x₀ = 1`), and every constraint is `tripleOk` — the combinations reduced
to rows by the taken dispatch branch never have all non-constant
coefficients zero while their constant sum is non-zero (`goodLC`) — then
the circuit produced by `generate_circuit` in PROVE mode passes
`is_constraint_satisfied`.  Without `tripleOk` the claim is false:
`reduce_coefs` returns row 0 (value 0) whenever its `cs` list is empty,
silently dropping a non-zero constant sum `k`. -/

theorem generate_circuit_local_soundness (num_variables num_input : Nat)
    (x : List F) (m : R1CSMatrices) (c : Circuit)
    (hn : 1 ≤ num_input) (hx0 : x.getD 0 0 = 1)
    (hok : ∀ t ∈ m.triples, tripleOk t)
    (hsat : r1cs_satisfied x m)
    (h : generate_circuit Mode.PROVE num_variables num_input x m = some c) :
    c.is_constraint_satisfied = true := by
  unfold generate_circuit at h
  dsimp only at h
  unfold generate_circuit_core at h
  cases hf : m.triples.foldlM process_constraint (initial_state num_input x) with
  | none =>
    rw [hf] at h
    exact absurd h (by simp)
  | some sfin =>
    rw [hf] at h
    have hc : sfin.1 = c := by
      have hm : (some sfin).map Prod.fst = some sfin.1 := rfl
      rw [hm] at h
      exact Option.some_injective _ h
    subst hc
    exact cinv_satisfied _ (fold_process_sound x m.triples _ sfin
      (initial_state_sound x num_input hx0 hn) hx0 hok hsat hf).ci

/-- C1 counterexample: the claim as stated (R1CS satisfaction alone implies
the produced circuit passes the check) is false.  With
`A = [[2·x₀], []]`, `B = [[0·x₁ + 3·x₀], []]`, `C = [[1·x₁], [1·x₁ − 6·x₀]]`
and `x = (1, 6)`, every R1CS constraint holds over M31
(`2·3 = 6` and `0 = 6 − 6`), yet the produced circuit fails
`is_constraint_satisfied`: reducing `B`'s first row drops its constant 3
(its only non-constant term has coefficient 0, so `cs` is empty and row 0
is returned), variable `x₁` is bound to a row holding 0, and the final
zero test receives `0 − 6 ≠ 0`. -/

theorem generate_circuit_soundness_counterexample :
    r1cs_satisfied [1, 6]
      ⟨[[((2 : F), 0)], []], [[((0 : F), 1), ((3 : F), 0)], []],
        [[((1 : F), 1)], [((1 : F), 1), ((-6 : F), 0)]]⟩
    ∧ ([1, 6] : List F).getD 0 0 = 1
    ∧ (generate_circuit Mode.PROVE 2 1 [1, 6]
        ⟨[[((2 : F), 0)], []], [[((0 : F), 1), ((3 : F), 0)], []],
          [[((1 : F), 1)], [((1 : F), 1), ((-6 : F), 0)]]⟩).map
        Circuit.is_constraint_satisfied = some false := by
  refine ⟨by decide, by decide, by decide⟩

/-- C1 witness: the amended theorem applied to the concrete satisfiable
instance `x₁ · x₂ = x₃` with `x = (1, 3, 11, 33)`. -/

theorem generate_circuit_local_soundness_witness :
    ((generate_circuit Mode.PROVE 4 2 [1, 3, 11, 33]
      ⟨[[((1 : F), 1)]], [[((1 : F), 2)]], [[((1 : F), 3)]]⟩).getD
        Circuit.new).is_constraint_satisfied = true :=
  generate_circuit_local_soundness 4 2 [1, 3, 11, 33]
    ⟨[[((1 : F), 1)]], [[((1 : F), 2)]], [[((1 : F), 3)]]⟩ _
    (by decide) (by decide) (by decide) (by decide)
    (option_eq_some_getD _ Circuit.new (by decide))

end CirclePlonk
